import Mathlib

/-!
Verification of `bk::Heap`, a binary heap over a random-access sequence (src/heap.hpp).

Shallow embedding of `bk::Heap<T, Container, Compare>`.

* The element type `T` is a type `α`.  The storage `container_` (a `std::vector<T>` /
  `std::deque<T>`) is a `List α`;
  `container_[i]` is the list lookup `s[i]?`, `emplace_back` is `s ++ [t]`,
  `pop_back` is `List.dropLast`, `front()` / `back()` are the first / last element.
* The comparator `compare_` is a function `α → α → Bool`.
* Indices (`size_type`) are natural numbers.  Every index the code computes is at most
  `2 * size() + 2`, and `parent_idx` is only evaluated at a non-zero index (the loop
  guard of `heap_up` short-circuits on `i == 0`), so no index computation wraps.
* The private member functions `heap_up` / `heap_down` read `compare_` and mutate
  `container_`; here they take the comparator and the storage and return the new storage.
* The two `while` loops are written as recursive functions whose termination measure is
  the one the loops have: the index itself for `heap_up`, `size() - next` for `heap_down`.
* `top()` and `pop()` on an empty heap are undefined behaviour in the source; here `top`
  returns `none` and `pop` returns the heap unchanged.  Every statement about them below
  is made for non-empty heaps only.
* Statements about two heap objects at once (copy independence) are made over heap objects
  in a memory of element buffers (`Memory`, `HeapObject`), where the storage of an object
  is the address of its buffer, so that two objects can share their elements; a member
  call on an object is the member function above applied to the buffer of that object.
-/

namespace bk

/-! ## Data model -/

/-- The class `Heap`: the two data members `compare_` and `container_` (heap.hpp:70-71). -/
structure Heap (α : Type) where
  /-- The comparator: `compare_ a b` says that `a` has strictly lower priority than `b`. -/
  compare_ : α → α → Bool
  /-- The backing sequence. -/
  container_ : List α

namespace Heap

variable {α : Type}

/-! ## Index arithmetic (heap.hpp:58-68) -/

/-- Index of the parent: `(i - 1) / 2`; evaluated by the code only for `i ≠ 0`. -/
def parent_idx (i : Nat) : Nat := (i - 1) / 2

/-- Index of the left child: `2 * i + 1`. -/
def left_idx (i : Nat) : Nat := 2 * i + 1

/-- Index of the right child: `2 * i + 2`. -/
def right_idx (i : Nat) : Nat := 2 * i + 2

/-! ## Storage primitives used by the member functions -/

/-- The call `compare_(container_[i], container_[j])`.  Both indices are in range at
every call site; outside the range (undefined in the source) the value is `false`. -/
def cmpAt (cmp : α → α → Bool) (s : List α) (i j : Nat) : Bool :=
  match s[i]?, s[j]? with
  | some a, some b => cmp a b
  | _, _ => false

/-- The call `std::swap(container_[i], container_[j])`.  Both indices are in range at
every call site; outside the range (undefined in the source) the storage is unchanged. -/
def swapAt (s : List α) (i j : Nat) : List α :=
  match s[i]?, s[j]? with
  | some a, some b => (s.set i b).set j a
  | _, _ => s

theorem parent_idx_lt {i : Nat} (h : i ≠ 0) : parent_idx i < i := by
  unfold parent_idx; omega

theorem length_swapAt (s : List α) (i j : Nat) : (swapAt s i j).length = s.length := by
  unfold swapAt
  split <;> simp

/-! ## Sift-up (heap.hpp:126-132) -/

/-- The loop of `Heap::heap_up`:
`while (i && compare_(container_[parent_idx(i)], container_[i])) { swap; i = parent_idx(i); }` -/
@[semireducible]
def heap_up (cmp : α → α → Bool) (s : List α) (i : Nat) : List α :=
  if h : i ≠ 0 ∧ cmpAt cmp s (parent_idx i) i = true then
    heap_up cmp (swapAt s (parent_idx i) i) (parent_idx i)
  else
    s
termination_by i
decreasing_by exact parent_idx_lt h.1

/-! ## Sift-down (heap.hpp:134-159) -/

/-- The value of the local variable `largest` at the end of one iteration of the loop of
`Heap::heap_down` started with `next`:
first the left child is accepted when `left < size() && !compare_(container_[left],
container_[largest])`, then the right child under the same test against the current
`largest`. -/
def heap_down_largest (cmp : α → α → Bool) (s : List α) (next : Nat) : Nat :=
  let left := left_idx next
  let right := right_idx next
  let largest := next
  let largest := if left < s.length && !cmpAt cmp s left largest then left else largest
  let largest := if right < s.length && !cmpAt cmp s right largest then right else largest
  largest

theorem heap_down_largest_cases (cmp : α → α → Bool) (s : List α) (next : Nat) :
    heap_down_largest cmp s next = next ∨
    (heap_down_largest cmp s next = left_idx next ∧ left_idx next < s.length) ∨
    (heap_down_largest cmp s next = right_idx next ∧ right_idx next < s.length) := by
  unfold heap_down_largest
  simp only
  split <;> split <;> simp_all

theorem heap_down_measure (cmp : α → α → Bool) (s : List α) (next : Nat)
    (h : heap_down_largest cmp s next ≠ next) :
    (swapAt s (heap_down_largest cmp s next) next).length - heap_down_largest cmp s next
      < s.length - next := by
  rw [length_swapAt]
  rcases heap_down_largest_cases cmp s next with h0 | ⟨h1, h2⟩ | ⟨h1, h2⟩
  · exact absurd h0 h
  · rw [h1]; unfold left_idx at *; omega
  · rw [h1]; unfold right_idx at *; omega

/-- The loop of `Heap::heap_down`: compute `largest`; if it differs from `next`, swap the
two slots and continue from `largest`, otherwise stop. -/
@[semireducible]
def heap_down (cmp : α → α → Bool) (s : List α) (next : Nat) : List α :=
  if h : heap_down_largest cmp s next ≠ next then
    heap_down cmp (swapAt s (heap_down_largest cmp s next) next) (heap_down_largest cmp s next)
  else
    s
termination_by s.length - next
decreasing_by exact heap_down_measure cmp s next h

/-! ## Public member functions -/

/-- The constructor `Heap(const Compare&)`: empty storage, the given comparator
(heap.hpp:74-77). The default constructor delegates to it with `Compare()`. -/
def mk_empty (cmp : α → α → Bool) : Heap α := { compare_ := cmp, container_ := [] }

/-- The member `top()`: `container_.front()` (heap.hpp:93-98). -/
def top (h : Heap α) : Option α := h.container_.head?

/-- The member `empty()`: `container_.empty()` (heap.hpp:100-103). -/
def empty (h : Heap α) : Bool := h.container_.isEmpty

/-- The member `size()`: `container_.size()` (heap.hpp:105-110). -/
def size (h : Heap α) : Nat := h.container_.length

/-- The storage after `container_.emplace_back(t); heap_up(size() - 1);`. -/
def push_storage (cmp : α → α → Bool) (s : List α) (t : α) : List α :=
  heap_up cmp (s ++ [t]) ((s ++ [t]).length - 1)

/-- The member `push(t)` (both overloads, heap.hpp:112-122). -/
def push (h : Heap α) (t : α) : Heap α :=
  { h with container_ := push_storage h.compare_ h.container_ t }

/-- The member `emplace(args...)` (heap.hpp:161-166): the element is constructed in place
at the end of the storage, then `heap_up(size() - 1)`; `t` is the constructed element. -/
def emplace (h : Heap α) (t : α) : Heap α :=
  { h with container_ := push_storage h.compare_ h.container_ t }

/-- The storage after `container_.front() = container_.back(); container_.pop_back();
heap_down(0);` on a non-empty storage. -/
def pop_storage (cmp : α → α → Bool) (s : List α) : List α :=
  match s.getLast? with
  | none => s
  | some b => heap_down cmp (s.set 0 b).dropLast 0

/-- The member `pop()` (heap.hpp:168-173). -/
def pop (h : Heap α) : Heap α :=
  { h with container_ := pop_storage h.compare_ h.container_ }


/-! ## Specification vocabulary -/

/-- The comparator requirement of the C++ standard library (`Compare`): a strict weak
ordering is irreflexive, transitive, and its incomparability relation is transitive. -/
structure StrictWeakOrdering (cmp : α → α → Bool) : Prop where
  irrefl : ∀ a, cmp a a = false
  trans : ∀ a b c, cmp a b = true → cmp b c = true → cmp a c = true
  incomp_trans : ∀ a b c, cmp a b = false → cmp b a = false → cmp b c = false →
    cmp c b = false → cmp a c = false ∧ cmp c a = false

/-- The heap property of a storage: for every index `c` with `0 < c < |s|`,
`compare(s[(c-1)/2], s[c])` is false. -/
def HeapProperty (cmp : α → α → Bool) (s : List α) : Prop :=
  ∀ c p x, 0 < c → s[parent_idx c]? = some p → s[c]? = some x → cmp p x = false

/-- Executable check of the heap property: every index `c` in `1 .. |s| - 1` passes
`!compare(s[(c-1)/2], s[c])`. -/
def isHeap (cmp : α → α → Bool) (s : List α) : Bool :=
  (List.range s.length).all fun c => c == 0 || !cmpAt cmp s (parent_idx c) c

/-- The slot `a` is not outranked by the slot `b`: `compare(s[a], s[b])` is false
whenever both slots exist. -/
def NotLess (cmp : α → α → Bool) (s : List α) (a b : Nat) : Prop :=
  ∀ x y, s[a]? = some x → s[b]? = some y → cmp x y = false

/-- Loop invariant of `heap_up` at index `i`: every parent/child pair is in order except
possibly the pair ending at `i`, and the parent of `i` is not outranked by the children
of `i`. -/
def UpInv (cmp : α → α → Bool) (s : List α) (i : Nat) : Prop :=
  (∀ c, 0 < c → c ≠ i → NotLess cmp s (parent_idx c) c) ∧
  (∀ c, 0 < c → parent_idx c = i → i ≠ 0 → NotLess cmp s (parent_idx i) c)

/-- Loop invariant of `heap_down` at index `i`: every parent/child pair is in order
except possibly the pairs starting at `i`, and the parent of `i` is not outranked by the
children of `i`. -/
def DownInv (cmp : α → α → Bool) (s : List α) (i : Nat) : Prop :=
  (∀ c, 0 < c → parent_idx c ≠ i → NotLess cmp s (parent_idx c) c) ∧
  (∀ c, 0 < c → parent_idx c = i → i ≠ 0 → NotLess cmp s (parent_idx i) c)

/-! ## Copy, move and swap (heap.hpp:83-91, 33-34, 175-191) -/

/-- Modelled from the spec: the move of the storage type (`std::vector` / `std::deque`,
whose code is not part of the repository).  The spec states that a move "transfers
ownership of storage ... from the source, leaving the source empty (size 0)".  The result
is (storage received by the destination, storage left in the source). -/
def move_container (c : List α) : List α × List α := (c, [])

/-- The move constructor `Heap(Heap&& other)`: `compare_(std::move(other.compare_)),
container_(std::move(other.container_))`.  The result is (the new heap, `other` after the
move).  The comparator is a function object without storage of its own; moving from it
leaves it as it was. -/
def move_construct (other : Heap α) : Heap α × Heap α :=
  ({ compare_ := other.compare_, container_ := (move_container other.container_).1 },
   { compare_ := other.compare_, container_ := (move_container other.container_).2 })

/-- The defaulted move assignment `operator=(Heap&& other)`: member-wise move into `self`.
The result is (`self` after the assignment, `other` after the move). -/
def move_assign (_self other : Heap α) : Heap α × Heap α :=
  ({ compare_ := other.compare_, container_ := (move_container other.container_).1 },
   { compare_ := other.compare_, container_ := (move_container other.container_).2 })

/-- The member `swap(other)`: `swap(container_, other.container_); swap(compare_,
other.compare_);`.  The result is (`self` after, `other` after). -/
def swap (self other : Heap α) : Heap α × Heap α :=
  ({ compare_ := other.compare_, container_ := other.container_ },
   { compare_ := self.compare_, container_ := self.container_ })

/-- The free function `std::swap(lhs, rhs)`: `lhs.swap(rhs)`. -/
def std_swap (lhs rhs : Heap α) : Heap α × Heap α := lhs.swap rhs

/-! ## Sequences of mutating operations -/

/-- One mutating call on a heap. -/
inductive Op (α : Type) where
  | push (t : α)
  | emplace (t : α)
  | pop

/-- Perform one mutating call. -/
def apply (h : Heap α) : Op α → Heap α
  | Op.push t => h.push t
  | Op.emplace t => h.emplace t
  | Op.pop => h.pop

/-- Perform a sequence of mutating calls, first to last. -/
def run (h : Heap α) (ops : List (Op α)) : Heap α := ops.foldl apply h

/-- The precondition of `pop` is respected all along a run: `pop` is never called on an
empty heap. -/
def popsGuarded (h : Heap α) : List (Op α) → Bool
  | [] => true
  | Op.pop :: rest => !h.empty && popsGuarded h.pop rest
  | Op.push t :: rest => popsGuarded (h.push t) rest
  | Op.emplace t :: rest => popsGuarded (h.emplace t) rest

/-- Number of `push` / `emplace` calls in a sequence. -/
def countPushes : List (Op α) → Nat
  | [] => 0
  | Op.pop :: rest => countPushes rest
  | _ :: rest => countPushes rest + 1

/-- Number of `pop` calls in a sequence. -/
def countPops : List (Op α) → Nat
  | [] => 0
  | Op.pop :: rest => countPops rest + 1
  | _ :: rest => countPops rest

/-! ## Heap objects in memory -/

/-- Modelled from the spec: the memory in which the storage type (`std::vector` /
`std::deque`, whose code is not part of the repository) keeps the elements.  The spec
calls the storage "an ordered, index-addressable, contiguous-growth sequence" which the
heap "exclusively owns"; here the memory is the list of the element buffers allocated so
far, and the address of a buffer is its position in that list.  Two storages that had the
same address would share their elements. -/
structure Memory (α : Type) where
  /-- The buffers allocated so far. -/
  buffers : List (List α)

/-- The elements held by the buffer at address `p`. -/
def Memory.read (m : Memory α) (p : Nat) : List α := (m.buffers[p]?).getD []

/-- The memory after the buffer at address `p` has received the elements `c`. -/
def Memory.write (m : Memory α) (p : Nat) (c : List α) : Memory α :=
  { buffers := m.buffers.set p c }

/-- A `Heap` object in memory: the member `compare_`, and the member `container_` given by
the address of the buffer that holds its elements. -/
structure HeapObject (α : Type) where
  compare_ : α → α → Bool
  container_ : Nat

/-- The members of a heap object, read from memory. -/
def HeapObject.value (h : HeapObject α) (m : Memory α) : Heap α :=
  { compare_ := h.compare_, container_ := m.read h.container_ }

/-- A call of `push` on the object `h`: the member function works on `h.container_`. -/
def HeapObject.push (h : HeapObject α) (m : Memory α) (t : α) : Memory α :=
  m.write h.container_ ((h.value m).push t).container_

/-- A call of `pop` on the object `h`: the member function works on `h.container_`. -/
def HeapObject.pop (h : HeapObject α) (m : Memory α) : Memory α :=
  m.write h.container_ (h.value m).pop.container_

/-- The comparator `std::less<int>`. -/
def std_less (a b : Int) : Bool := decide (a < b)

/-- The comparator `std::greater<int>`, and the lambda `a > b` of the test
"Custom comparator". -/
def std_greater (a b : Int) : Bool := decide (a > b)

/-- The comparator `std::greater<Foo>` of the test "emplace" (heap_tests.cc:192-210):
`Foo` has the fields `x_` and `y_`, and `operator>` reads `x_` only.  An element is the
pair `(x_, y_)`; the field `y_`, which no comparison reads, is a number. -/
def foo_greater (a b : Int × Int) : Bool := decide (a.1 > b.1)

/-! ## The extraction loop of the tests and the demo -/

theorem length_heap_down (cmp : α → α → Bool) :
    ∀ (n : Nat) (s : List α) (i : Nat), s.length - i = n →
      (heap_down cmp s i).length = s.length := by
  intro n
  induction n using Nat.strong_induction_on with
  | _ n ih =>
    intro s i hn
    rw [heap_down]
    split
    · next h => rw [ih _ (hn ▸ heap_down_measure cmp s i h) _ _ rfl, length_swapAt]
    · rfl

theorem pop_storage_cons (cmp : α → α → Bool) (a : α) (t : List α) :
    pop_storage cmp (a :: t) =
      heap_down cmp (((a :: t).set 0 ((a :: t).getLast (by simp))).dropLast) 0 := by
  unfold pop_storage
  rw [List.getLast?_eq_getLast _ (by simp)]

theorem length_pop_storage (cmp : α → α → Bool) (s : List α) (hs : s ≠ []) :
    (pop_storage cmp s).length = s.length - 1 := by
  cases s with
  | nil => exact absurd rfl hs
  | cons a t =>
    rw [pop_storage_cons, length_heap_down cmp _ _ _ rfl]
    simp

theorem size_pop_lt (h : Heap α) (hne : h.empty = false) : h.pop.size < h.size := by
  have hs : h.container_ ≠ [] := by
    intro h0
    simp [empty, h0] at hne
  have h1 : 0 < h.container_.length := List.length_pos.mpr hs
  simp only [size, pop, length_pop_storage _ _ hs]
  omega

/-- The extraction loop of the tests (heap_tests.cc:133-139, 152-158) and of the demo
(demo.cc:27-34): as long as `!heap.empty()`, read `heap.top()` and call `heap.pop()`.
The result is the list of the values read, one for each call of `pop`, in the order in
which they were read. -/
@[semireducible]
def drain (h : Heap α) : List α :=
  if hne : h.empty = false then
    match h.top with
    | some t => t :: drain h.pop
    | none => []
  else
    []
termination_by h.size
decreasing_by exact size_pop_lt h hne

/-! ## The loops with an iteration budget -/

/-- The loop of `Heap::heap_up` run for at most `fuel` evaluations of its condition:
`none` when the budget is used up before the condition turns false, otherwise the storage
at the exit of the loop. -/
def heap_up_fuel (cmp : α → α → Bool) : Nat → List α → Nat → Option (List α)
  | 0, _, _ => none
  | fuel + 1, s, i =>
    if i ≠ 0 ∧ cmpAt cmp s (parent_idx i) i = true then
      heap_up_fuel cmp fuel (swapAt s (parent_idx i) i) (parent_idx i)
    else
      some s

/-- The loop of `Heap::heap_down` run for at most `fuel` iterations: `none` when the
budget is used up before the `break`, otherwise the storage at the `break`. -/
def heap_down_fuel (cmp : α → α → Bool) : Nat → List α → Nat → Option (List α)
  | 0, _, _ => none
  | fuel + 1, s, next =>
    if heap_down_largest cmp s next ≠ next then
      heap_down_fuel cmp fuel (swapAt s (heap_down_largest cmp s next) next)
        (heap_down_largest cmp s next)
    else
      some s

/-! ## The loops with a record of the indices they use -/

/-- An index computation or a storage access made by a member function. -/
inductive Access where
  /-- The element access `container_[i]` (also `front()`, `back()`), made when the storage
  has `size` elements. -/
  | elem (i size : Nat)
  /-- The evaluation of `parent_idx(i)`, that is of the unsigned subtraction `i - 1`. -/
  | parent (i : Nat)
  /-- The evaluation of `size() - 1` when the storage has `size` elements. -/
  | size_minus_one (size : Nat)
  deriving DecidableEq

/-- An element access is safe when its index is below the size; `parent_idx(i)` and
`size() - 1` are safe when the unsigned subtraction does not wrap. -/
def Access.safe : Access → Bool
  | Access.elem i size => decide (i < size)
  | Access.parent i => decide (i ≠ 0)
  | Access.size_minus_one size => decide (1 ≤ size)

/-- The loop of `Heap::heap_up` together with the record of what it evaluates.  The
condition `i && compare_(container_[parent_idx(i)], container_[i])` evaluates nothing but
`i` when `i == 0`; otherwise it evaluates `parent_idx(i)` and reads the two slots.  The
body evaluates `parent_idx(i)` for the swap, accesses the two slots, and evaluates
`parent_idx(i)` for the assignment to `i`. -/
@[semireducible]
def heap_up_traced (cmp : α → α → Bool) (s : List α) (i : Nat) : List α × List Access :=
  if h0 : i ≠ 0 then
    if cmpAt cmp s (parent_idx i) i = true then
      ((heap_up_traced cmp (swapAt s (parent_idx i) i) (parent_idx i)).1,
        [Access.parent i, Access.elem (parent_idx i) s.length, Access.elem i s.length,
          Access.parent i, Access.elem (parent_idx i) s.length, Access.elem i s.length,
          Access.parent i]
        ++ (heap_up_traced cmp (swapAt s (parent_idx i) i) (parent_idx i)).2)
    else
      (s, [Access.parent i, Access.elem (parent_idx i) s.length, Access.elem i s.length])
  else
    (s, [])
termination_by i
decreasing_by
  all_goals exact parent_idx_lt h0

/-- The element accesses of the two tests of one iteration of `Heap::heap_down`:
`container_[left]` and `container_[largest]` when `left < size()`, then
`container_[right]` and `container_[largest]` when `right < size()`, where `largest` is
`left` if the first test accepted the left child and `next` otherwise. -/
def heap_down_reads (cmp : α → α → Bool) (s : List α) (next : Nat) : List Access :=
  let left := left_idx next
  let right := right_idx next
  let largest := next
  let reads_left :=
    if left < s.length then [Access.elem left s.length, Access.elem largest s.length] else []
  let largest := if left < s.length && !cmpAt cmp s left largest then left else largest
  let reads_right :=
    if right < s.length then [Access.elem right s.length, Access.elem largest s.length] else []
  reads_left ++ reads_right

/-- The loop of `Heap::heap_down` together with the record of the element accesses: the
reads of the two tests, then the two slots of the swap when `largest != next`. -/
@[semireducible]
def heap_down_traced (cmp : α → α → Bool) (s : List α) (next : Nat) :
    List α × List Access :=
  if h : heap_down_largest cmp s next ≠ next then
    ((heap_down_traced cmp (swapAt s (heap_down_largest cmp s next) next)
        (heap_down_largest cmp s next)).1,
      heap_down_reads cmp s next
        ++ [Access.elem (heap_down_largest cmp s next) s.length, Access.elem next s.length]
        ++ (heap_down_traced cmp (swapAt s (heap_down_largest cmp s next) next)
            (heap_down_largest cmp s next)).2)
  else
    (s, heap_down_reads cmp s next)
termination_by s.length - next
decreasing_by
  all_goals exact heap_down_measure cmp s next h

/-- The member `push(t)` / `emplace(t)` with its record: `emplace_back`, then `size() - 1`
is evaluated on the grown storage, then `heap_up`. -/
def push_traced (cmp : α → α → Bool) (s : List α) (t : α) : List α × List Access :=
  ((heap_up_traced cmp (s ++ [t]) ((s ++ [t]).length - 1)).1,
    Access.size_minus_one (s ++ [t]).length
      :: (heap_up_traced cmp (s ++ [t]) ((s ++ [t]).length - 1)).2)

/-- The member `top()` with its record: `front()` reads slot 0. -/
def top_traced (s : List α) : Option α × List Access :=
  (s.head?, [Access.elem 0 s.length])

/-- The member `pop()` with its record: `back()` reads the last slot, `front()` is
assigned, `pop_back()` removes the last slot, then `heap_down(0)` runs on the shortened
storage. -/
def pop_traced (cmp : α → α → Bool) (s : List α) : List α × List Access :=
  match s.getLast? with
  | none => (s, [Access.elem (s.length - 1) s.length, Access.elem 0 s.length])
  | some b =>
    ((heap_down_traced cmp (s.set 0 b).dropLast 0).1,
      [Access.elem (s.length - 1) s.length, Access.elem 0 s.length,
        Access.elem (s.length - 1) s.length]
      ++ (heap_down_traced cmp (s.set 0 b).dropLast 0).2)

/-! ## The variant of sift-down with the strict test -/

/-- A comparator that is a strict total order: irreflexive, transitive, and any two
distinct values are comparable. -/
structure StrictTotalOrdering (cmp : α → α → Bool) : Prop where
  irrefl : ∀ a, cmp a a = false
  trans : ∀ a b c, cmp a b = true → cmp b c = true → cmp a c = true
  total : ∀ a b, a ≠ b → cmp a b = true ∨ cmp b a = true

/-- The choice of `largest` in the variant of `heap_down` named in the design notes of the
specification: a child is accepted when `compare(largest, child)` holds, instead of
`!compare(child, largest)`. -/
def heap_down_largest_strict (cmp : α → α → Bool) (s : List α) (next : Nat) : Nat :=
  let left := left_idx next
  let right := right_idx next
  let largest := next
  let largest := if left < s.length && cmpAt cmp s largest left then left else largest
  let largest := if right < s.length && cmpAt cmp s largest right then right else largest
  largest

theorem heap_down_largest_strict_cases (cmp : α → α → Bool) (s : List α) (next : Nat) :
    heap_down_largest_strict cmp s next = next ∨
    (heap_down_largest_strict cmp s next = left_idx next ∧ left_idx next < s.length) ∨
    (heap_down_largest_strict cmp s next = right_idx next ∧ right_idx next < s.length) := by
  unfold heap_down_largest_strict
  simp only
  split <;> split <;> simp_all

theorem heap_down_strict_measure (cmp : α → α → Bool) (s : List α) (next : Nat)
    (h : heap_down_largest_strict cmp s next ≠ next) :
    (swapAt s (heap_down_largest_strict cmp s next) next).length
        - heap_down_largest_strict cmp s next
      < s.length - next := by
  rw [length_swapAt]
  rcases heap_down_largest_strict_cases cmp s next with h0 | ⟨h1, h2⟩ | ⟨h1, h2⟩
  · exact absurd h0 h
  · rw [h1]; unfold left_idx at *; omega
  · rw [h1]; unfold right_idx at *; omega

/-- The loop of `heap_down` with the strict test `compare(largest, child)`. -/
@[semireducible]
def heap_down_strict (cmp : α → α → Bool) (s : List α) (next : Nat) : List α :=
  if h : heap_down_largest_strict cmp s next ≠ next then
    heap_down_strict cmp (swapAt s (heap_down_largest_strict cmp s next) next)
      (heap_down_largest_strict cmp s next)
  else
    s
termination_by s.length - next
decreasing_by exact heap_down_strict_measure cmp s next h

/-- The comparator `a <= b` on integers (`std::less_equal<int>`), which is not
irreflexive. -/
def std_less_equal (a b : Int) : Bool := decide (a ≤ b)

end Heap

end bk

namespace bk.Heap

variable {α : Type}

/-! ## Strict weak orderings -/

theorem StrictWeakOrdering.asymm {cmp : α → α → Bool} (hc : StrictWeakOrdering cmp)
    {a b : α} (h : cmp a b = true) : cmp b a = false := by
  cases hba : cmp b a with
  | false => rfl
  | true =>
    have h1 := hc.trans a b a h hba
    rw [hc.irrefl a] at h1
    exact absurd h1 (by simp)

theorem StrictWeakOrdering.neg_trans {cmp : α → α → Bool} (hc : StrictWeakOrdering cmp)
    {a b c : α} (hab : cmp a b = false) (hbc : cmp b c = false) : cmp a c = false := by
  cases hac : cmp a c with
  | false => rfl
  | true =>
    have hcb : cmp c b = false := by
      cases h : cmp c b with
      | false => rfl
      | true => rw [hc.trans a c b hac h] at hab; exact absurd hab (by simp)
    have hba : cmp b a = false := by
      cases h : cmp b a with
      | false => rfl
      | true => rw [hc.trans b a c h hac] at hbc; exact absurd hbc (by simp)
    have h1 := (hc.incomp_trans a b c hab hba hbc hcb).1
    rw [hac] at h1
    exact absurd h1 (by simp)

/-! ## Storage primitives -/

theorem getElem?_swapAt {s : List α} {i j : Nat} (hi : i < s.length) (hj : j < s.length)
    (k : Nat) :
    (swapAt s i j)[k]? = if k = j then s[i]? else if k = i then s[j]? else s[k]? := by
  unfold swapAt
  rw [List.getElem?_eq_getElem hi, List.getElem?_eq_getElem hj]
  simp only [List.getElem?_set, List.length_set]
  by_cases hkj : k = j
  · subst hkj; simp [hj]
  · by_cases hki : k = i
    · subst hki; simp [hkj, hi, Ne.symm hkj]
    · simp [hkj, hki, Ne.symm hkj, Ne.symm hki]

theorem cmpAt_eq_true {cmp : α → α → Bool} {s : List α} {i j : Nat}
    (h : cmpAt cmp s i j = true) :
    ∃ x y, s[i]? = some x ∧ s[j]? = some y ∧ cmp x y = true := by
  unfold cmpAt at h
  split at h
  · next a b ha hb => exact ⟨a, b, ha, hb, h⟩
  · exact absurd h (by simp)

theorem cmpAt_of_getElem? {cmp : α → α → Bool} {s : List α} {i j : Nat} {x y : α}
    (hx : s[i]? = some x) (hy : s[j]? = some y) : cmpAt cmp s i j = cmp x y := by
  unfold cmpAt
  rw [hx, hy]

theorem cmpAt_eq_false {cmp : α → α → Bool} {s : List α} {i j : Nat}
    (h : cmpAt cmp s i j = false) : NotLess cmp s i j := by
  intro x y hx hy
  rw [cmpAt_of_getElem? hx hy] at h
  exact h

theorem swap_cons_set_perm (x : α) : ∀ (t : List α) (j : Nat) (b : α),
    t[j]? = some b → List.Perm (b :: t.set j x) (x :: t)
  | [], j, b, h => by simp at h
  | y :: u, 0, b, h => by
    simp at h
    subst h
    exact List.Perm.swap x y u
  | y :: u, k + 1, b, h => by
    simp at h
    have ih := swap_cons_set_perm x u k b h
    have h1 : List.Perm (b :: (y :: u).set (k + 1) x) (y :: b :: u.set k x) := by
      simpa using List.Perm.swap y b (u.set k x)
    exact h1.trans ((ih.cons y).trans (List.Perm.swap x y u))

theorem set_set_perm_of_getElem? : ∀ (s : List α) (i j : Nat) (a b : α),
    s[i]? = some a → s[j]? = some b → List.Perm ((s.set i b).set j a) s
  | [], i, j, a, b, hi, hj => by simp at hi
  | x :: t, 0, 0, a, b, hi, hj => by
    simp at hi hj
    subst hi
    simp
  | x :: t, 0, k + 1, a, b, hi, hj => by
    simp at hi hj
    subst hi
    simpa using swap_cons_set_perm x t k b hj
  | x :: t, k + 1, 0, a, b, hi, hj => by
    simp at hi hj
    subst hj
    simpa using swap_cons_set_perm x t k a hi
  | x :: t, i + 1, j + 1, a, b, hi, hj => by
    simp at hi hj
    simpa using set_set_perm_of_getElem? t i j a b hi hj

theorem swapAt_perm (s : List α) (i j : Nat) : List.Perm (swapAt s i j) s := by
  unfold swapAt
  split
  · next a b ha hb => exact set_set_perm_of_getElem? s i j a b ha hb
  · exact List.Perm.refl s

/-! ## Sift-up restores the heap property -/

theorem heapProperty_iff {cmp : α → α → Bool} {s : List α} :
    HeapProperty cmp s ↔ ∀ c, 0 < c → NotLess cmp s (parent_idx c) c :=
  ⟨fun h c hc x y hx hy => h c x y hc hx hy, fun h c x y hc hx hy => h c hc x y hx hy⟩

theorem upInv_step {cmp : α → α → Bool} (hc : StrictWeakOrdering cmp) {s : List α} {i : Nat}
    (hi0 : i ≠ 0) (hcmp : cmpAt cmp s (parent_idx i) i = true) (hinv : UpInv cmp s i) :
    UpInv cmp (swapAt s (parent_idx i) i) (parent_idx i) := by
  obtain ⟨xp, xi, hxp, hxi, hlt⟩ := cmpAt_eq_true hcmp
  have hil : i < s.length := (List.getElem?_eq_some.mp hxi).1
  have hpl : parent_idx i < s.length := (List.getElem?_eq_some.mp hxp).1
  have hpi : parent_idx i < i := parent_idx_lt hi0
  have hget := getElem?_swapAt hpl hil
  obtain ⟨ha, hb⟩ := hinv
  constructor
  · intro c hc0 hcp x y hx hy
    have hpc : parent_idx c < c := parent_idx_lt (by omega)
    rw [hget] at hx hy
    by_cases hci : c = i
    · subst hci
      rw [if_pos rfl, hxp] at hy
      rw [if_neg (by omega), if_pos rfl, hxi] at hx
      cases hx; cases hy
      exact hc.asymm hlt
    · rw [if_neg hci, if_neg hcp] at hy
      by_cases h1 : parent_idx c = i
      · rw [if_pos h1, hxp] at hx
        cases hx
        exact hb c hc0 h1 hi0 xp y hxp hy
      · rw [if_neg h1] at hx
        by_cases h2 : parent_idx c = parent_idx i
        · rw [if_pos h2, hxi] at hx
          cases hx
          have h3 : cmp xp y = false := ha c hc0 hci xp y (h2 ▸ hxp) hy
          cases h4 : cmp xi y with
          | false => rfl
          | true => rw [hc.trans xp xi y hlt h4] at h3; exact absurd h3 (by simp)
        · rw [if_neg h2] at hx
          exact ha c hc0 hci x y hx hy
  · intro c hc0 hcp hp0 x y hx hy
    have hpc : parent_idx c < c := parent_idx_lt (by omega)
    have hpp : parent_idx (parent_idx i) < parent_idx i := parent_idx_lt hp0
    rw [hget] at hx hy
    rw [if_neg (by omega), if_neg (by omega)] at hx
    have h1 : cmp x xp = false := ha (parent_idx i) (by omega) (by omega) x xp hx hxp
    by_cases hci : c = i
    · subst hci
      rw [if_pos rfl, hxp] at hy
      cases hy
      exact h1
    · rw [if_neg hci, if_neg (by omega)] at hy
      have h2 : cmp xp y = false := ha c hc0 hci xp y (hcp ▸ hxp) hy
      exact hc.neg_trans h1 h2

theorem heap_up_heapProperty {cmp : α → α → Bool} (hc : StrictWeakOrdering cmp) :
    ∀ (i : Nat) (s : List α), UpInv cmp s i → HeapProperty cmp (heap_up cmp s i) := by
  intro i
  induction i using Nat.strong_induction_on with
  | _ i ih =>
    intro s hinv
    rw [heap_up]
    split
    · next h => exact ih (parent_idx i) (parent_idx_lt h.1) _ (upInv_step hc h.1 h.2 hinv)
    · next h =>
      rw [heapProperty_iff]
      intro c hc0
      by_cases hci : c = i
      · subst hci
        have h1 : cmpAt cmp s (parent_idx c) c = false := by
          cases h2 : cmpAt cmp s (parent_idx c) c with
          | false => rfl
          | true => exact absurd ⟨by omega, h2⟩ h
        exact cmpAt_eq_false h1
      · exact hinv.1 c hc0 hci

theorem upInv_append {cmp : α → α → Bool} {s : List α} (hs : HeapProperty cmp s) (t : α) :
    UpInv cmp (s ++ [t]) ((s ++ [t]).length - 1) := by
  have hlen : (s ++ [t]).length - 1 = s.length := by simp
  rw [hlen]
  constructor
  · intro c hc0 hcl x y hx hy
    have hpc : parent_idx c < c := parent_idx_lt (by omega)
    have hcl2 : c < s.length := by
      have := (List.getElem?_eq_some.mp hy).1
      simp at this
      omega
    rw [List.getElem?_append_left (by omega)] at hx
    rw [List.getElem?_append_left hcl2] at hy
    exact hs c x y hc0 hx hy
  · intro c hc0 hcp _ x y hx hy
    have hpc : parent_idx c < c := parent_idx_lt (by omega)
    have := (List.getElem?_eq_some.mp hy).1
    simp at this
    omega

theorem push_storage_heapProperty {cmp : α → α → Bool} (hc : StrictWeakOrdering cmp)
    {s : List α} (hs : HeapProperty cmp s) (t : α) :
    HeapProperty cmp (push_storage cmp s t) :=
  heap_up_heapProperty hc _ _ (upInv_append hs t)

/-! ## Sift-down restores the heap property -/

theorem heap_down_largest_eq (cmp : α → α → Bool) (s : List α) (i : Nat) :
    heap_down_largest cmp s i =
      if right_idx i < s.length ∧
          cmpAt cmp s (right_idx i)
            (if left_idx i < s.length ∧ cmpAt cmp s (left_idx i) i = false
              then left_idx i else i) = false
      then right_idx i
      else if left_idx i < s.length ∧ cmpAt cmp s (left_idx i) i = false
        then left_idx i else i := by
  unfold heap_down_largest
  simp only [Bool.and_eq_true, decide_eq_true_eq, Bool.not_eq_true']

theorem child_cases {c i : Nat} (hc0 : 0 < c) (hp : parent_idx c = i) :
    c = left_idx i ∨ c = right_idx i := by
  unfold parent_idx at hp
  unfold left_idx right_idx
  omega

theorem notLess_of_cmpAt_true {cmp : α → α → Bool} (hc : StrictWeakOrdering cmp)
    {s : List α} {a b : Nat} (h : cmpAt cmp s a b = true) : NotLess cmp s b a := by
  obtain ⟨x, y, hx, hy, hlt⟩ := cmpAt_eq_true h
  intro u v hu hv
  rw [hy] at hu
  rw [hx] at hv
  cases hu; cases hv
  exact hc.asymm hlt

theorem notLess_of_length_le {cmp : α → α → Bool} {s : List α} {a b : Nat}
    (h : s.length ≤ b) : NotLess cmp s a b := by
  intro x y _ hy
  rw [List.getElem?_eq_none h] at hy
  exact absurd hy (by simp)

theorem cmpAt_true_or_false (cmp : α → α → Bool) (s : List α) (a b : Nat) :
    cmpAt cmp s a b = true ∨ cmpAt cmp s a b = false := by
  cases cmpAt cmp s a b <;> simp

/-- When the loop of `heap_down` stops at `i`, no child of `i` outranks `i`. -/
theorem largest_eq_self {cmp : α → α → Bool} (hc : StrictWeakOrdering cmp) {s : List α}
    {i : Nat} (h : heap_down_largest cmp s i = i) :
    ∀ c, 0 < c → parent_idx c = i → NotLess cmp s i c := by
  rw [heap_down_largest_eq] at h
  have hl : left_idx i ≠ i := by unfold left_idx; omega
  have hr : right_idx i ≠ i := by unfold right_idx; omega
  by_cases hA : left_idx i < s.length ∧ cmpAt cmp s (left_idx i) i = false
  · rw [if_pos hA] at h
    split at h
    · exact absurd h hr
    · exact absurd h hl
  · rw [if_neg hA] at h
    by_cases hB : right_idx i < s.length ∧ cmpAt cmp s (right_idx i) i = false
    · rw [if_pos hB] at h
      exact absurd h hr
    · intro c hc0 hp
      rcases child_cases hc0 hp with rfl | rfl
      · by_cases hlen : left_idx i < s.length
        · rcases cmpAt_true_or_false cmp s (left_idx i) i with h1 | h1
          · exact notLess_of_cmpAt_true hc h1
          · exact absurd ⟨hlen, h1⟩ hA
        · exact notLess_of_length_le (by omega)
      · by_cases hlen : right_idx i < s.length
        · rcases cmpAt_true_or_false cmp s (right_idx i) i with h1 | h1
          · exact notLess_of_cmpAt_true hc h1
          · exact absurd ⟨hlen, h1⟩ hB
        · exact notLess_of_length_le (by omega)

/-- When the loop of `heap_down` swaps at `i`, the chosen child exists, is not outranked
by the element at `i`, and is not outranked by its sibling. -/
theorem largest_ne_self {cmp : α → α → Bool} (hc : StrictWeakOrdering cmp) {s : List α}
    {i : Nat} (h : heap_down_largest cmp s i ≠ i) :
    heap_down_largest cmp s i < s.length ∧ 0 < heap_down_largest cmp s i ∧
    parent_idx (heap_down_largest cmp s i) = i ∧
    NotLess cmp s (heap_down_largest cmp s i) i ∧
    ∀ c, 0 < c → parent_idx c = i → c ≠ heap_down_largest cmp s i →
      NotLess cmp s (heap_down_largest cmp s i) c := by
  have hpl : parent_idx (left_idx i) = i := by unfold parent_idx left_idx; omega
  have hpr : parent_idx (right_idx i) = i := by unfold parent_idx right_idx; omega
  have hl0 : 0 < left_idx i := by unfold left_idx; omega
  have hr0 : 0 < right_idx i := by unfold right_idx; omega
  have hlr : left_idx i < right_idx i := by unfold left_idx right_idx; omega
  rw [heap_down_largest_eq] at h ⊢
  by_cases hA : left_idx i < s.length ∧ cmpAt cmp s (left_idx i) i = false
  · rw [if_pos hA] at h ⊢
    by_cases hB : right_idx i < s.length ∧ cmpAt cmp s (right_idx i) (left_idx i) = false
    · rw [if_pos hB]
      refine ⟨hB.1, hr0, hpr, ?_, ?_⟩
      · intro x y hx hy
        obtain ⟨z, hz⟩ : ∃ z, s[left_idx i]? = some z :=
          ⟨_, List.getElem?_eq_getElem hA.1⟩
        exact hc.neg_trans (cmpAt_eq_false hB.2 x z hx hz) (cmpAt_eq_false hA.2 z y hz hy)
      · intro c hc0 hp hne
        rcases child_cases hc0 hp with rfl | rfl
        · exact cmpAt_eq_false hB.2
        · exact absurd rfl hne
    · rw [if_neg hB]
      refine ⟨hA.1, hl0, hpl, cmpAt_eq_false hA.2, ?_⟩
      intro c hc0 hp hne
      rcases child_cases hc0 hp with rfl | rfl
      · exact absurd rfl hne
      · by_cases hlen : right_idx i < s.length
        · rcases cmpAt_true_or_false cmp s (right_idx i) (left_idx i) with h1 | h1
          · exact notLess_of_cmpAt_true hc h1
          · exact absurd ⟨hlen, h1⟩ hB
        · exact notLess_of_length_le (by omega)
  · rw [if_neg hA] at h ⊢
    by_cases hB : right_idx i < s.length ∧ cmpAt cmp s (right_idx i) i = false
    · rw [if_pos hB]
      refine ⟨hB.1, hr0, hpr, cmpAt_eq_false hB.2, ?_⟩
      intro c hc0 hp hne
      rcases child_cases hc0 hp with rfl | rfl
      · have hlen : left_idx i < s.length := by omega
        rcases cmpAt_true_or_false cmp s (left_idx i) i with h1 | h1
        · obtain ⟨xl, xi, hxl, hxi, hlt⟩ := cmpAt_eq_true h1
          intro x y hx hy
          rw [hxl] at hy
          cases hy
          have h2 : cmp x xi = false := cmpAt_eq_false hB.2 x xi hx hxi
          cases h3 : cmp x xl with
          | false => rfl
          | true => rw [hc.trans x xl xi h3 hlt] at h2; exact absurd h2 (by simp)
        · exact absurd ⟨hlen, h1⟩ hA
      · exact absurd rfl hne
    · rw [if_neg hB] at h
      exact absurd rfl h

theorem downInv_step {cmp : α → α → Bool} (hc : StrictWeakOrdering cmp) {s : List α}
    {i : Nat} (h : heap_down_largest cmp s i ≠ i) (hinv : DownInv cmp s i) :
    DownInv cmp (swapAt s (heap_down_largest cmp s i) i) (heap_down_largest cmp s i) := by
  obtain ⟨hLlen, hL0, hLp, hLi, hLsib⟩ := largest_ne_self hc h
  generalize heap_down_largest cmp s i = L at *
  have hiL : i < L := by
    have := parent_idx_lt (show L ≠ 0 by omega)
    omega
  have hget := getElem?_swapAt hLlen (show i < s.length by omega)
  obtain ⟨ha, hb⟩ := hinv
  constructor
  · intro c hc0 hcp x y hx hy
    have hpc : parent_idx c < c := parent_idx_lt (by omega)
    rw [hget] at hx hy
    by_cases h1 : parent_idx c = i
    · rw [if_pos h1] at hx
      rw [if_neg (by omega)] at hy
      by_cases hcL : c = L
      · rw [if_pos hcL] at hy
        exact hLi x y hx hy
      · rw [if_neg hcL] at hy
        exact hLsib c hc0 h1 hcL x y hx hy
    · rw [if_neg h1, if_neg hcp] at hx
      have hcL : c ≠ L := by
        intro hcL
        rw [hcL] at h1
        exact h1 hLp
      by_cases hci : c = i
      · rw [if_pos hci] at hy
        subst hci
        exact hb L hL0 hLp (by omega) x y hx hy
      · rw [if_neg hci, if_neg hcL] at hy
        exact ha c hc0 h1 x y hx hy
  · intro c hc0 hcp _ x y hx hy
    have hpc : parent_idx c < c := parent_idx_lt (by omega)
    rw [hLp] at hx
    rw [hget] at hx hy
    rw [if_pos rfl] at hx
    rw [if_neg (by omega), if_neg (by omega)] at hy
    exact ha c hc0 (by omega) x y (by rw [hcp]; exact hx) hy

theorem heap_down_heapProperty {cmp : α → α → Bool} (hc : StrictWeakOrdering cmp) :
    ∀ (n : Nat) (s : List α) (i : Nat), s.length - i = n → DownInv cmp s i →
      HeapProperty cmp (heap_down cmp s i) := by
  intro n
  induction n using Nat.strong_induction_on with
  | _ n ih =>
    intro s i hn hinv
    rw [heap_down]
    split
    · next h =>
      exact ih _ (hn ▸ heap_down_measure cmp s i h) _ _ rfl (downInv_step hc h hinv)
    · next h =>
      have h0 : heap_down_largest cmp s i = i := by
        by_cases h1 : heap_down_largest cmp s i = i
        · exact h1
        · exact absurd h1 h
      rw [heapProperty_iff]
      intro c hc0
      by_cases hci : parent_idx c = i
      · rw [hci]
        exact largest_eq_self hc h0 c hc0 hci
      · exact hinv.1 c hc0 hci

theorem getElem?_set_zero_dropLast {s : List α} {b x : α} {k : Nat} (hk : k ≠ 0)
    (h : ((s.set 0 b).dropLast)[k]? = some x) : s[k]? = some x := by
  rw [List.getElem?_dropLast, List.getElem?_set] at h
  rw [if_neg (Ne.symm hk)] at h
  split at h
  · exact h
  · exact absurd h (by simp)

theorem downInv_pop {cmp : α → α → Bool} {s : List α} (hs : HeapProperty cmp s) (b : α) :
    DownInv cmp (s.set 0 b).dropLast 0 := by
  constructor
  · intro c hc0 hcp x y hx hy
    exact hs c x y hc0 (getElem?_set_zero_dropLast hcp hx)
      (getElem?_set_zero_dropLast (by omega) hy)
  · intro c _ _ h
    exact absurd rfl h

theorem pop_storage_heapProperty {cmp : α → α → Bool} (hc : StrictWeakOrdering cmp)
    {s : List α} (hs : HeapProperty cmp s) : HeapProperty cmp (pop_storage cmp s) := by
  unfold pop_storage
  split
  · exact hs
  · next b _ => exact heap_down_heapProperty hc _ _ _ rfl (downInv_pop hs b)

/-! ## Size and element conservation of the two loops -/

theorem length_heap_up (cmp : α → α → Bool) :
    ∀ (i : Nat) (s : List α), (heap_up cmp s i).length = s.length := by
  intro i
  induction i using Nat.strong_induction_on with
  | _ i ih =>
    intro s
    rw [heap_up]
    split
    · next h => rw [ih _ (parent_idx_lt h.1), length_swapAt]
    · rfl

theorem heap_up_perm (cmp : α → α → Bool) :
    ∀ (i : Nat) (s : List α), List.Perm (heap_up cmp s i) s := by
  intro i
  induction i using Nat.strong_induction_on with
  | _ i ih =>
    intro s
    rw [heap_up]
    split
    · next h => exact (ih _ (parent_idx_lt h.1) _).trans (swapAt_perm s _ _)
    · exact List.Perm.refl s

theorem heap_down_perm (cmp : α → α → Bool) :
    ∀ (n : Nat) (s : List α) (i : Nat), s.length - i = n →
      List.Perm (heap_down cmp s i) s := by
  intro n
  induction n using Nat.strong_induction_on with
  | _ n ih =>
    intro s i hn
    rw [heap_down]
    split
    · next h =>
      exact (ih _ (hn ▸ heap_down_measure cmp s i h) _ _ rfl).trans (swapAt_perm s _ _)
    · exact List.Perm.refl s

theorem length_push_storage (cmp : α → α → Bool) (s : List α) (t : α) :
    (push_storage cmp s t).length = s.length + 1 := by
  unfold push_storage
  rw [length_heap_up]
  simp

theorem push_storage_perm (cmp : α → α → Bool) (s : List α) (t : α) :
    List.Perm (push_storage cmp s t) (s ++ [t]) :=
  heap_up_perm cmp _ _

theorem pop_storage_perm (cmp : α → α → Bool) (a : α) (t : List α) :
    List.Perm (pop_storage cmp (a :: t)) t := by
  rw [pop_storage_cons]
  refine (heap_down_perm cmp _ _ _ rfl).trans ?_
  cases t with
  | nil => simp
  | cons x u =>
    have h1 : (a :: x :: u).getLast (by simp) = (x :: u).getLast (by simp) := by simp
    rw [h1]
    have h2 : ((a :: x :: u).set 0 ((x :: u).getLast (by simp))).dropLast
        = (x :: u).getLast (by simp) :: (x :: u).dropLast := by simp
    rw [h2]
    have h3 := List.dropLast_append_getLast (l := x :: u) (by simp)
    exact (List.perm_append_singleton _ _).symm.trans (List.Perm.of_eq h3)

/-! ## The root of a heap-ordered storage -/

theorem parent_getElem? {s : List α} {i : Nat} {x : α} (h : s[i]? = some x) :
    ∃ p, s[parent_idx i]? = some p := by
  have h1 := (List.getElem?_eq_some.mp h).1
  have h2 : parent_idx i ≤ i := by unfold parent_idx; omega
  exact ⟨_, List.getElem?_eq_getElem (by omega)⟩

/-- In a heap-ordered storage the element at index 0 is not outranked by any element. -/
theorem root_not_less {cmp : α → α → Bool} (hc : StrictWeakOrdering cmp) {s : List α}
    (hs : HeapProperty cmp s) {r : α} (hr : s[0]? = some r) :
    ∀ (i : Nat) (x : α), s[i]? = some x → cmp r x = false := by
  intro i
  induction i using Nat.strong_induction_on with
  | _ i ih =>
    intro x hx
    by_cases hi : i = 0
    · subst hi
      rw [hr] at hx
      cases hx
      exact hc.irrefl _
    · obtain ⟨p, hp⟩ := parent_getElem? hx
      exact hc.neg_trans (ih _ (parent_idx_lt hi) p hp) (hs i p x (by omega) hp hx)

theorem head_not_less {cmp : α → α → Bool} (hc : StrictWeakOrdering cmp) {a : α}
    {t : List α} (hs : HeapProperty cmp (a :: t)) : ∀ x ∈ a :: t, cmp a x = false := by
  intro x hx
  obtain ⟨i, hi⟩ := List.getElem?_of_mem hx
  exact root_not_less hc hs (by simp) i x hi

/-! ## The executable heap check -/

theorem heapProperty_of_isHeap {cmp : α → α → Bool} {s : List α}
    (h : isHeap cmp s = true) : HeapProperty cmp s := by
  intro c p x hc0 hp hx
  unfold isHeap at h
  rw [List.all_eq_true] at h
  have hlen := (List.getElem?_eq_some.mp hx).1
  have h1 := h c (List.mem_range.mpr hlen)
  rw [cmpAt_of_getElem? hp hx] at h1
  have h2 : (c == 0) = false := by simp; omega
  rw [h2] at h1
  simpa using h1

/-! ## The extraction loop of the tests and the demo: lemmas -/

theorem drain_of_nil {h : Heap α} (hs : h.container_ = []) : drain h = [] := by
  rw [drain]
  simp [empty, hs]

theorem drain_of_cons {h : Heap α} {a : α} {t : List α} (hs : h.container_ = a :: t) :
    drain h = a :: drain h.pop := by
  rw [drain]
  simp [empty, top, hs]

theorem drain_perm : ∀ (n : Nat) (h : Heap α), h.size = n →
    List.Perm (drain h) h.container_ := by
  intro n
  induction n with
  | zero =>
    intro h hn
    have hs : h.container_ = [] := List.length_eq_zero.mp hn
    rw [drain_of_nil hs, hs]
  | succ n ih =>
    intro h hn
    cases hs : h.container_ with
    | nil => simp [size, hs] at hn
    | cons a t =>
      rw [drain_of_cons hs]
      have hp : List.Perm h.pop.container_ t := by
        simp only [pop, hs]
        exact pop_storage_perm _ a t
      have hl : h.pop.size = n := by
        have := hp.length_eq
        simp [size, hs] at hn
        simp only [size]
        omega
      exact ((ih h.pop hl).trans hp).cons a

theorem drain_pairwise : ∀ (n : Nat) (h : Heap α), h.size = n →
    StrictWeakOrdering h.compare_ → HeapProperty h.compare_ h.container_ →
    List.Pairwise (fun a b => h.compare_ a b = false) (drain h) := by
  intro n
  induction n with
  | zero =>
    intro h hn _ _
    rw [drain_of_nil (List.length_eq_zero.mp hn)]
    exact List.Pairwise.nil
  | succ n ih =>
    intro h hn hc hh
    cases hs : h.container_ with
    | nil => simp [size, hs] at hn
    | cons a t =>
      rw [drain_of_cons hs]
      have hp : List.Perm h.pop.container_ t := by
        simp only [pop, hs]
        exact pop_storage_perm _ a t
      have hl : h.pop.size = n := by
        have := hp.length_eq
        simp [size, hs] at hn
        simp only [size]
        omega
      have hh2 : HeapProperty h.pop.compare_ h.pop.container_ :=
        pop_storage_heapProperty hc hh
      refine List.Pairwise.cons ?_ (ih h.pop hl hc hh2)
      intro b hb
      have hb2 : b ∈ t := hp.subset ((drain_perm _ _ rfl).subset hb)
      rw [hs] at hh
      exact head_not_less hc hh b (List.mem_cons_of_mem a hb2)

/-! ## Runs of operations -/

theorem run_cons (h : Heap α) (op : Op α) (ops : List (Op α)) :
    run h (op :: ops) = run (h.apply op) ops := rfl

theorem apply_compare (h : Heap α) (op : Op α) : (h.apply op).compare_ = h.compare_ := by
  cases op <;> rfl

theorem apply_heapProperty {h : Heap α} (hc : StrictWeakOrdering h.compare_)
    (hh : HeapProperty h.compare_ h.container_) (op : Op α) :
    HeapProperty (h.apply op).compare_ (h.apply op).container_ := by
  cases op with
  | push t => exact push_storage_heapProperty hc hh t
  | emplace t => exact push_storage_heapProperty hc hh t
  | pop => exact pop_storage_heapProperty hc hh

theorem run_compare (ops : List (Op α)) : ∀ h : Heap α, (run h ops).compare_ = h.compare_ := by
  induction ops with
  | nil => intro h; rfl
  | cons op ops ih => intro h; rw [run_cons, ih, apply_compare]

theorem run_heapProperty (ops : List (Op α)) : ∀ h : Heap α,
    StrictWeakOrdering h.compare_ → HeapProperty h.compare_ h.container_ →
    HeapProperty (run h ops).compare_ (run h ops).container_ := by
  induction ops with
  | nil => intro h _ hh; exact hh
  | cons op ops ih =>
    intro h hc hh
    rw [run_cons]
    exact ih _ (by rw [apply_compare]; exact hc) (apply_heapProperty hc hh op)

theorem heapProperty_nil (cmp : α → α → Bool) : HeapProperty cmp [] := by
  intro c p x _ _ hx
  simp at hx

theorem top_not_less {h : Heap α} (hc : StrictWeakOrdering h.compare_)
    (hh : HeapProperty h.compare_ h.container_) (hne : h.empty = false) :
    ∃ t, h.top = some t ∧ t ∈ h.container_ ∧ ∀ x ∈ h.container_, h.compare_ t x = false := by
  cases hs : h.container_ with
  | nil => simp [empty, hs] at hne
  | cons a t =>
    rw [hs] at hh
    exact ⟨a, by simp [top, hs], by simp, head_not_less hc hh⟩

theorem std_less_swo : StrictWeakOrdering std_less := by
  constructor
  · intro a; simp [std_less]
  · intro a b c; simp only [std_less, decide_eq_true_eq]; omega
  · intro a b c; simp only [std_less, decide_eq_false_iff_not]; omega

theorem std_greater_swo : StrictWeakOrdering std_greater := by
  constructor
  · intro a; simp [std_greater]
  · intro a b c; simp only [std_greater, decide_eq_true_eq]; omega
  · intro a b c; simp only [std_greater, decide_eq_false_iff_not]; omega

theorem size_iterate_pop (h : Heap α) : ∀ k, k ≤ h.size →
    (Nat.iterate pop k h).size = h.size - k := by
  intro k
  induction k with
  | zero => intro _; rfl
  | succ k ih =>
    intro hk
    rw [Function.iterate_succ_apply']
    have h1 := ih (by omega)
    have hne : (Nat.iterate pop k h).container_ ≠ [] := by
      intro h0
      have : (Nat.iterate pop k h).size = 0 := by simp [size, h0]
      omega
    simp only [size, pop, length_pop_storage _ _ hne]
    simp only [size] at h1
    omega

theorem foldl_push_compare (xs : List α) : ∀ h : Heap α,
    (xs.foldl push h).compare_ = h.compare_ := by
  induction xs with
  | nil => intro h; rfl
  | cons x xs ih => intro h; rw [List.foldl_cons, ih]; rfl

theorem foldl_push_heapProperty (xs : List α) : ∀ h : Heap α,
    StrictWeakOrdering h.compare_ → HeapProperty h.compare_ h.container_ →
    HeapProperty h.compare_ (xs.foldl push h).container_ := by
  induction xs with
  | nil => intro h _ hh; exact hh
  | cons x xs ih =>
    intro h hc hh
    rw [List.foldl_cons]
    exact ih (h.push x) hc (push_storage_heapProperty hc hh x)

theorem foldl_push_perm (xs : List α) : ∀ h : Heap α,
    List.Perm (xs.foldl push h).container_ (h.container_ ++ xs) := by
  induction xs with
  | nil => intro h; simp
  | cons x xs ih =>
    intro h
    rw [List.foldl_cons]
    refine (ih (h.push x)).trans ?_
    have h1 : List.Perm (h.push x).container_ (h.container_ ++ [x]) :=
      push_storage_perm _ _ _
    have h2 := h1.append_right xs
    simpa using h2

/-- Pushing a list into an empty heap and draining it: the values read are a permutation
of the list, pairwise not outranked by their successors, one value for each pop. -/
theorem drain_foldl_push {cmp : α → α → Bool} (hc : StrictWeakOrdering cmp) (xs : List α) :
    List.Perm (drain (xs.foldl push (mk_empty cmp))) xs ∧
    List.Pairwise (fun a b => cmp a b = false) (drain (xs.foldl push (mk_empty cmp))) ∧
    (drain (xs.foldl push (mk_empty cmp))).length = xs.length ∧
    ∀ k, k ≤ xs.length →
      (Nat.iterate pop k (xs.foldl push (mk_empty cmp))).size = xs.length - k := by
  have hcmp : (xs.foldl push (mk_empty cmp)).compare_ = cmp := foldl_push_compare xs _
  have hperm : List.Perm (drain (xs.foldl push (mk_empty cmp))) xs :=
    (drain_perm _ _ rfl).trans (by simpa [mk_empty] using foldl_push_perm xs (mk_empty cmp))
  have hh : HeapProperty cmp (xs.foldl push (mk_empty cmp)).container_ :=
    foldl_push_heapProperty xs (mk_empty cmp) hc (heapProperty_nil cmp)
  have hsize : (xs.foldl push (mk_empty cmp)).size = xs.length := by
    have := (foldl_push_perm xs (mk_empty cmp)).length_eq
    simpa [size, mk_empty] using this
  refine ⟨hperm, ?_, hperm.length_eq, ?_⟩
  · have := drain_pairwise _ (xs.foldl push (mk_empty cmp)) rfl (by rw [hcmp]; exact hc)
      (by rw [hcmp]; exact hh)
    rw [hcmp] at this
    exact this
  · intro k hk
    rw [size_iterate_pop _ k (by omega), hsize]

theorem size_push (h : Heap α) (v : α) : (h.push v).size = h.size + 1 :=
  length_push_storage _ _ _

theorem size_pop (h : Heap α) (hne : h.empty = false) : h.pop.size = h.size - 1 := by
  have hs : h.container_ ≠ [] := by
    intro h0
    simp [empty, h0] at hne
  exact length_pop_storage _ _ hs

theorem empty_iff_size (h : Heap α) : h.empty = true ↔ h.size = 0 := by
  simp [empty, size, List.isEmpty_iff]

/-- Along a run that respects the precondition of `pop`, the size grows by the number of
`push` / `emplace` calls and shrinks by the number of `pop` calls. -/
theorem size_run (ops : List (Op α)) : ∀ h : Heap α, popsGuarded h ops = true →
    (run h ops).size + countPops ops = h.size + countPushes ops := by
  induction ops with
  | nil => intro h _; rfl
  | cons op ops ih =>
    intro h hg
    rw [run_cons]
    cases op with
    | push t =>
      have := ih (h.push t) hg
      simp only [apply, countPops, countPushes, size_push] at this ⊢
      omega
    | emplace t =>
      have := ih (h.emplace t) hg
      have h1 : (h.emplace t).size = h.size + 1 := size_push h t
      simp only [apply, countPops, countPushes, h1] at this ⊢
      omega
    | pop =>
      simp only [popsGuarded, Bool.and_eq_true, Bool.not_eq_true'] at hg
      have := ih h.pop hg.2
      have h1 := size_pop h hg.1
      have h2 : h.size ≠ 0 := by
        intro h0
        have := (empty_iff_size h).mpr h0
        rw [hg.1] at this
        exact absurd this (by simp)
      simp only [apply, countPops, countPushes, h1] at this ⊢
      omega

theorem foo_greater_swo : StrictWeakOrdering foo_greater := by
  constructor
  · intro a; simp [foo_greater]
  · intro a b c; simp only [foo_greater, decide_eq_true_eq]; omega
  · intro a b c; simp only [foo_greater, decide_eq_false_iff_not]; omega

theorem heap_down_eq_self_of_largest {cmp : α → α → Bool} {s : List α} {i : Nat}
    (h : heap_down_largest cmp s i = i) : heap_down cmp s i = s := by
  rw [heap_down]
  simp [h]

theorem heap_down_eq_of_largest_ne {cmp : α → α → Bool} {s : List α} {i : Nat}
    (h : heap_down_largest cmp s i ≠ i) :
    heap_down cmp s i =
      heap_down cmp (swapAt s (heap_down_largest cmp s i) i) (heap_down_largest cmp s i) := by
  rw [heap_down]
  simp [h]

/-- One iteration of `heap_down` swaps exactly when some existing child passes the test
`!compare_(child, current)`. -/
theorem largest_ne_self_iff (cmp : α → α → Bool) (s : List α) (i : Nat) :
    heap_down_largest cmp s i ≠ i ↔
      ∃ c, 0 < c ∧ parent_idx c = i ∧ c < s.length ∧ cmpAt cmp s c i = false := by
  have hpl : parent_idx (left_idx i) = i := by unfold parent_idx left_idx; omega
  have hpr : parent_idx (right_idx i) = i := by unfold parent_idx right_idx; omega
  have hl0 : 0 < left_idx i := by unfold left_idx; omega
  have hr0 : 0 < right_idx i := by unfold right_idx; omega
  have hl : left_idx i ≠ i := by unfold left_idx; omega
  have hr : right_idx i ≠ i := by unfold right_idx; omega
  rw [heap_down_largest_eq]
  by_cases hA : left_idx i < s.length ∧ cmpAt cmp s (left_idx i) i = false
  · rw [if_pos hA]
    constructor
    · intro _
      exact ⟨left_idx i, hl0, hpl, hA.1, hA.2⟩
    · intro _
      split
      · exact hr
      · exact hl
  · rw [if_neg hA]
    by_cases hB : right_idx i < s.length ∧ cmpAt cmp s (right_idx i) i = false
    · rw [if_pos hB]
      exact ⟨fun _ => ⟨right_idx i, hr0, hpr, hB.1, hB.2⟩, fun _ => hr⟩
    · rw [if_neg hB]
      constructor
      · intro h
        exact absurd rfl h
      · rintro ⟨c, hc0, hp, hlen, hcmp⟩
        rcases child_cases hc0 hp with rfl | rfl
        · exact absurd ⟨hlen, hcmp⟩ hA
        · exact absurd ⟨hlen, hcmp⟩ hB

/-! ## One evaluation of the condition of sift-up -/

theorem heap_up_of_not {cmp : α → α → Bool} {s : List α} {i : Nat}
    (h : ¬ (i ≠ 0 ∧ cmpAt cmp s (parent_idx i) i = true)) : heap_up cmp s i = s := by
  rw [heap_up, dif_neg h]

theorem heap_up_of_cond {cmp : α → α → Bool} {s : List α} {i : Nat}
    (h : i ≠ 0 ∧ cmpAt cmp s (parent_idx i) i = true) :
    heap_up cmp s i = heap_up cmp (swapAt s (parent_idx i) i) (parent_idx i) := by
  rw [heap_up, dif_pos h]

theorem push_storage_nil (cmp : α → α → Bool) (v : α) : push_storage cmp [] v = [v] := by
  unfold push_storage
  exact heap_up_of_not (by simp)

theorem getElem?_append_singleton_length (s : List α) (v : α) :
    (s ++ [v])[s.length]? = some v := by
  rw [List.getElem?_append_right (Nat.le_refl _)]
  simp

theorem push_storage_eq_append {cmp : α → α → Bool} {s : List α} {v : α}
    (h : ∀ p, s[parent_idx s.length]? = some p → cmp p v = false) :
    push_storage cmp s v = s ++ [v] := by
  unfold push_storage
  apply heap_up_of_not
  have hlen : (s ++ [v]).length - 1 = s.length := by simp
  rw [hlen]
  rintro ⟨h0, hcmp⟩
  have hp : parent_idx s.length < s.length := parent_idx_lt h0
  have h1 : (s ++ [v])[parent_idx s.length]? = some (s[parent_idx s.length]) := by
    rw [List.getElem?_append_left hp, List.getElem?_eq_getElem hp]
  rw [cmpAt_of_getElem? h1 (getElem?_append_singleton_length s v)] at hcmp
  rw [h _ (List.getElem?_eq_getElem hp)] at hcmp
  exact absurd hcmp (by simp)

/-! ## The tie-break of sift-down -/

theorem heap_down_largest_eq_right {cmp : α → α → Bool} {s : List α} {i : Nat}
    (hr : right_idx i < s.length) (h1 : cmpAt cmp s (left_idx i) i = false)
    (h2 : cmpAt cmp s (right_idx i) (left_idx i) = false) :
    heap_down_largest cmp s i = right_idx i := by
  have hl : left_idx i < s.length := by unfold left_idx; unfold right_idx at hr; omega
  have inner : (if left_idx i < s.length ∧ cmpAt cmp s (left_idx i) i = false
      then left_idx i else i) = left_idx i := if_pos ⟨hl, h1⟩
  rw [heap_down_largest_eq, inner, if_pos ⟨hr, h2⟩]

/-! ## The root after sift-up -/

theorem heap_up_root_keep {cmp : α → α → Bool} {r v : α} (hrv : cmp r v = false) :
    ∀ (i : Nat) (s : List α), s[0]? = some r → s[i]? = some v →
      (heap_up cmp s i)[0]? = some r := by
  intro i
  induction i using Nat.strong_induction_on with
  | _ i ih =>
    intro s h0 hi
    by_cases hcond : i ≠ 0 ∧ cmpAt cmp s (parent_idx i) i = true
    · rw [heap_up_of_cond hcond]
      obtain ⟨xp, xi, hxp, hxi, hlt⟩ := cmpAt_eq_true hcond.2
      have hil : i < s.length := (List.getElem?_eq_some.mp hxi).1
      have hpl : parent_idx i < s.length := (List.getElem?_eq_some.mp hxp).1
      have hpi : parent_idx i < i := parent_idx_lt hcond.1
      have hget := getElem?_swapAt hpl hil
      rw [hi] at hxi
      cases hxi
      have hp0 : parent_idx i ≠ 0 := by
        intro hp0
        rw [hp0, h0] at hxp
        cases hxp
        rw [hrv] at hlt
        exact absurd hlt (by simp)
      apply ih _ hpi
      · rw [hget, if_neg (by omega), if_neg (by omega)]
        exact h0
      · rw [hget, if_neg (by omega), if_pos rfl]
        exact hi
    · rw [heap_up_of_not hcond]
      exact h0

theorem heap_up_root_replace {cmp : α → α → Bool} {v : α} :
    ∀ (i : Nat) (s : List α), s[i]? = some v →
      (∀ k x, k < i → s[k]? = some x → cmp x v = true) →
      (heap_up cmp s i)[0]? = some v := by
  intro i
  induction i using Nat.strong_induction_on with
  | _ i ih =>
    intro s hi hall
    by_cases h0 : i = 0
    · subst h0
      rw [heap_up_of_not (by simp)]
      exact hi
    · have hil : i < s.length := (List.getElem?_eq_some.mp hi).1
      have hpi : parent_idx i < i := parent_idx_lt h0
      have hpl : parent_idx i < s.length := by omega
      have hxp := List.getElem?_eq_getElem hpl
      have hcond : i ≠ 0 ∧ cmpAt cmp s (parent_idx i) i = true :=
        ⟨h0, by rw [cmpAt_of_getElem? hxp hi]; exact hall _ _ hpi hxp⟩
      rw [heap_up_of_cond hcond]
      have hget := getElem?_swapAt hpl hil
      apply ih _ hpi
      · rw [hget, if_neg (by omega), if_pos rfl]
        exact hi
      · intro k x hk hx
        rw [hget, if_neg (by omega), if_neg (by omega)] at hx
        exact hall k x (by omega) hx

theorem push_storage_root_keep {cmp : α → α → Bool} {r v : α} {t : List α}
    (hrv : cmp r v = false) : (push_storage cmp (r :: t) v)[0]? = some r := by
  unfold push_storage
  apply heap_up_root_keep hrv
  · simp
  · have := getElem?_append_singleton_length (r :: t) v
    simp only [List.length_append, List.length_cons, List.length_singleton,
      List.length_nil, Nat.add_sub_cancel] at this ⊢
    exact this

theorem push_storage_root_replace {cmp : α → α → Bool} (hc : StrictWeakOrdering cmp)
    {r v : α} {t : List α} (hh : HeapProperty cmp (r :: t)) (hrv : cmp r v = true) :
    (push_storage cmp (r :: t) v)[0]? = some v := by
  unfold push_storage
  have hlen : ((r :: t) ++ [v]).length - 1 = (r :: t).length := by simp
  rw [hlen]
  apply heap_up_root_replace
  · exact getElem?_append_singleton_length (r :: t) v
  · intro k x hk hx
    rw [List.getElem?_append_left hk] at hx
    have h1 : cmp r x = false := head_not_less hc hh x (List.getElem?_mem hx)
    cases h2 : cmp x v with
    | true => rfl
    | false =>
      rw [hc.neg_trans h1 h2] at hrv
      exact absurd hrv (by simp)

/-! ## The strict and the non-strict test of sift-down -/

theorem StrictTotalOrdering.not_both {cmp : α → α → Bool} (hc : StrictTotalOrdering cmp)
    {a b : α} (h : cmp a b = true) : cmp b a = false := by
  cases hba : cmp b a with
  | false => rfl
  | true =>
    have h1 := hc.trans a b a h hba
    rw [hc.irrefl a] at h1
    exact absurd h1 (by simp)

/-- On distinct slots of a storage without repeated elements, a strict total order
decides `compare(x, y)` as the negation of `compare(y, x)`. -/
theorem cmpAt_flip {cmp : α → α → Bool} (hc : StrictTotalOrdering cmp) {s : List α}
    (hs : s.Nodup) {a b : Nat} (ha : a < s.length) (hb : b < s.length) (hab : a ≠ b) :
    cmpAt cmp s a b = !cmpAt cmp s b a := by
  have hxa := List.getElem?_eq_getElem ha
  have hxb := List.getElem?_eq_getElem hb
  rw [cmpAt_of_getElem? hxa hxb, cmpAt_of_getElem? hxb hxa]
  have hne : s[a] ≠ s[b] := fun h => hab ((hs.getElem_inj_iff).mp h)
  rcases hc.total _ _ hne with h | h
  · rw [h, hc.not_both h]; rfl
  · rw [h, hc.not_both h]; rfl

theorem heap_down_largest_strict_eq {cmp : α → α → Bool} (hc : StrictTotalOrdering cmp)
    {s : List α} (hs : s.Nodup) (i : Nat) :
    heap_down_largest_strict cmp s i = heap_down_largest cmp s i := by
  have hli : left_idx i ≠ i := by unfold left_idx; omega
  have hri : right_idx i ≠ i := by unfold right_idx; omega
  have hrl : right_idx i ≠ left_idx i := by unfold left_idx right_idx; omega
  have hil : i < left_idx i := by unfold left_idx; omega
  have hlr : left_idx i < right_idx i := by unfold left_idx right_idx; omega
  unfold heap_down_largest_strict heap_down_largest
  simp only
  by_cases h1 : left_idx i < s.length
  · have f1 : cmpAt cmp s i (left_idx i) = !cmpAt cmp s (left_idx i) i :=
      cmpAt_flip hc hs (by omega) h1 (Ne.symm hli)
    rw [f1]
    by_cases h2 : right_idx i < s.length
    · have f2 : cmpAt cmp s i (right_idx i) = !cmpAt cmp s (right_idx i) i :=
        cmpAt_flip hc hs (by omega) h2 (Ne.symm hri)
      have f3 : cmpAt cmp s (left_idx i) (right_idx i)
          = !cmpAt cmp s (right_idx i) (left_idx i) :=
        cmpAt_flip hc hs h1 h2 (Ne.symm hrl)
      split
      · rw [f3]
      · rw [f2]
    · simp [h2]
  · have h2 : ¬ right_idx i < s.length := by omega
    simp [h1, h2]

theorem heap_down_strict_eq {cmp : α → α → Bool} (hc : StrictTotalOrdering cmp) :
    ∀ (n : Nat) (s : List α) (i : Nat), s.length - i = n → s.Nodup →
      heap_down_strict cmp s i = heap_down cmp s i := by
  intro n
  induction n using Nat.strong_induction_on with
  | _ n ih =>
    intro s i hn hs
    rw [heap_down_strict, heap_down]
    simp only [heap_down_largest_strict_eq hc hs]
    split
    · next h =>
      exact ih _ (hn ▸ heap_down_measure cmp s i h) _ _ rfl
        ((swapAt_perm s _ _).nodup_iff.mpr hs)
    · rfl

/-! ## The loops end within their iteration budget -/

theorem heap_up_fuel_eq (cmp : α → α → Bool) :
    ∀ (fuel : Nat) (s : List α) (i : Nat), i < fuel →
      heap_up_fuel cmp fuel s i = some (heap_up cmp s i) := by
  intro fuel
  induction fuel with
  | zero => intro s i h; exact absurd h (Nat.not_lt_zero i)
  | succ fuel ih =>
    intro s i h
    unfold heap_up_fuel
    by_cases hcond : i ≠ 0 ∧ cmpAt cmp s (parent_idx i) i = true
    · rw [if_pos hcond, heap_up_of_cond hcond]
      have := parent_idx_lt hcond.1
      exact ih _ _ (by omega)
    · rw [if_neg hcond, heap_up_of_not hcond]

theorem heap_down_largest_bounds {cmp : α → α → Bool} {s : List α} {i : Nat}
    (h : heap_down_largest cmp s i ≠ i) :
    i < heap_down_largest cmp s i ∧ heap_down_largest cmp s i < s.length := by
  rcases heap_down_largest_cases cmp s i with h0 | ⟨h1, h2⟩ | ⟨h1, h2⟩
  · exact absurd h0 h
  · rw [h1]; exact ⟨by unfold left_idx; omega, h2⟩
  · rw [h1]; exact ⟨by unfold right_idx; omega, h2⟩

theorem heap_down_fuel_eq (cmp : α → α → Bool) :
    ∀ (fuel : Nat) (s : List α) (i : Nat), s.length - i < fuel →
      heap_down_fuel cmp fuel s i = some (heap_down cmp s i) := by
  intro fuel
  induction fuel with
  | zero => intro s i h; exact absurd h (Nat.not_lt_zero _)
  | succ fuel ih =>
    intro s i h
    unfold heap_down_fuel
    by_cases hcond : heap_down_largest cmp s i ≠ i
    · rw [if_pos hcond, heap_down_eq_of_largest_ne hcond]
      have := heap_down_measure cmp s i hcond
      exact ih _ _ (by omega)
    · rw [if_neg hcond]
      have h0 : heap_down_largest cmp s i = i := by
        by_cases h1 : heap_down_largest cmp s i = i
        · exact h1
        · exact absurd h1 hcond
      rw [heap_down_eq_self_of_largest h0]

/-! ## The indices used by the loops -/

theorem heap_up_traced_fst (cmp : α → α → Bool) :
    ∀ (i : Nat) (s : List α), (heap_up_traced cmp s i).1 = heap_up cmp s i := by
  intro i
  induction i using Nat.strong_induction_on with
  | _ i ih =>
    intro s
    rw [heap_up_traced]
    by_cases h0 : i ≠ 0
    · rw [dif_pos h0]
      by_cases hc : cmpAt cmp s (parent_idx i) i = true
      · rw [if_pos hc, heap_up_of_cond ⟨h0, hc⟩]
        exact ih _ (parent_idx_lt h0) _
      · rw [if_neg hc, heap_up_of_not (fun h => hc h.2)]
    · rw [dif_neg h0, heap_up_of_not (fun h => h0 h.1)]

theorem heap_up_traced_safe (cmp : α → α → Bool) :
    ∀ (i : Nat) (s : List α), i < s.length →
      ∀ a ∈ (heap_up_traced cmp s i).2, a.safe = true := by
  intro i
  induction i using Nat.strong_induction_on with
  | _ i ih =>
    intro s hi a ha
    rw [heap_up_traced] at ha
    by_cases h0 : i ≠ 0
    · rw [dif_pos h0] at ha
      have hp : parent_idx i < i := parent_idx_lt h0
      have e1 : (Access.parent i).safe = true := by simp [Access.safe, h0]
      have e2 : (Access.elem (parent_idx i) s.length).safe = true := by
        simp only [Access.safe, decide_eq_true_eq]; omega
      have e3 : (Access.elem i s.length).safe = true := by
        simp only [Access.safe, decide_eq_true_eq]; exact hi
      by_cases hc : cmpAt cmp s (parent_idx i) i = true
      · rw [if_pos hc] at ha
        simp only [List.cons_append, List.nil_append, List.mem_cons] at ha
        rcases ha with rfl | rfl | rfl | rfl | rfl | rfl | rfl | ha
        · exact e1
        · exact e2
        · exact e3
        · exact e1
        · exact e2
        · exact e3
        · exact e1
        · exact ih _ hp _ (by rw [length_swapAt]; omega) a ha
      · rw [if_neg hc] at ha
        simp only [List.mem_cons, List.mem_singleton] at ha
        rcases ha with rfl | rfl | rfl | ha
        · exact e1
        · exact e2
        · exact e3
        · simp at ha
    · rw [dif_neg h0] at ha
      simp at ha

theorem heap_down_reads_safe (cmp : α → α → Bool) (s : List α) (i : Nat) :
    ∀ a ∈ heap_down_reads cmp s i, a.safe = true := by
  intro a ha
  unfold heap_down_reads at ha
  simp only [List.mem_append] at ha
  have hil : i < left_idx i := by unfold left_idx; omega
  have hlr : left_idx i < right_idx i := by unfold left_idx right_idx; omega
  rcases ha with ha | ha
  · split at ha
    · next hl =>
      simp only [List.mem_cons, List.mem_singleton] at ha
      rcases ha with rfl | rfl | ha
      · simp only [Access.safe, decide_eq_true_eq]; exact hl
      · simp only [Access.safe, decide_eq_true_eq]; omega
      · simp at ha
    · simp at ha
  · split at ha
    · next hr =>
      simp only [List.mem_cons, List.mem_singleton] at ha
      rcases ha with rfl | rfl | ha
      · simp only [Access.safe, decide_eq_true_eq]; exact hr
      · simp only [Access.safe, decide_eq_true_eq]
        split <;> omega
      · simp at ha
    · simp at ha

theorem heap_down_traced_fst (cmp : α → α → Bool) :
    ∀ (n : Nat) (s : List α) (i : Nat), s.length - i = n →
      (heap_down_traced cmp s i).1 = heap_down cmp s i := by
  intro n
  induction n using Nat.strong_induction_on with
  | _ n ih =>
    intro s i hn
    rw [heap_down_traced, heap_down]
    split
    · next h => exact ih _ (hn ▸ heap_down_measure cmp s i h) _ _ rfl
    · rfl

theorem heap_down_traced_safe (cmp : α → α → Bool) :
    ∀ (n : Nat) (s : List α) (i : Nat), s.length - i = n →
      ∀ a ∈ (heap_down_traced cmp s i).2, a.safe = true := by
  intro n
  induction n using Nat.strong_induction_on with
  | _ n ih =>
    intro s i hn a ha
    rw [heap_down_traced] at ha
    split at ha
    · next h =>
      have hb := heap_down_largest_bounds h
      simp only [List.mem_append, List.mem_cons, List.mem_singleton] at ha
      rcases ha with (ha | rfl | rfl | ha) | ha
      · exact heap_down_reads_safe cmp s i a ha
      · simp only [Access.safe, decide_eq_true_eq]; exact hb.2
      · simp only [Access.safe, decide_eq_true_eq]; omega
      · simp at ha
      · exact ih _ (hn ▸ heap_down_measure cmp s i h) _ _ rfl a ha
    · exact heap_down_reads_safe cmp s i a ha

theorem heap_up_traced_parent (cmp : α → α → Bool) :
    ∀ (i : Nat) (s : List α) (j : Nat),
      Access.parent j ∈ (heap_up_traced cmp s i).2 → j ≠ 0 := by
  intro i
  induction i using Nat.strong_induction_on with
  | _ i ih =>
    intro s j ha
    rw [heap_up_traced] at ha
    by_cases h0 : i ≠ 0
    · rw [dif_pos h0] at ha
      by_cases hc : cmpAt cmp s (parent_idx i) i = true
      · rw [if_pos hc] at ha
        simp only [List.cons_append, List.nil_append, List.mem_cons, Access.parent.injEq,
          reduceCtorEq, false_or] at ha
        rcases ha with rfl | rfl | rfl | ha
        · exact h0
        · exact h0
        · exact h0
        · exact ih _ (parent_idx_lt h0) _ j ha
      · rw [if_neg hc] at ha
        simp only [List.mem_cons, Access.parent.injEq, reduceCtorEq, false_or,
          List.mem_singleton, or_false] at ha
        rcases ha with rfl | ha
        · exact h0
        · simp at ha
    · rw [dif_neg h0] at ha
      simp at ha

theorem push_traced_safe (cmp : α → α → Bool) (s : List α) (v : α) :
    ∀ a ∈ (push_traced cmp s v).2, a.safe = true := by
  intro a ha
  unfold push_traced at ha
  simp only [List.mem_cons] at ha
  rcases ha with rfl | ha
  · simp [Access.safe]
  · exact heap_up_traced_safe cmp _ _ (by simp) a ha

theorem pop_traced_cons (cmp : α → α → Bool) (x : α) (t : List α) :
    pop_traced cmp (x :: t) =
      ((heap_down_traced cmp
          (((x :: t).set 0 ((x :: t).getLast (by simp))).dropLast) 0).1,
        [Access.elem ((x :: t).length - 1) (x :: t).length, Access.elem 0 (x :: t).length,
          Access.elem ((x :: t).length - 1) (x :: t).length]
        ++ (heap_down_traced cmp
          (((x :: t).set 0 ((x :: t).getLast (by simp))).dropLast) 0).2) := by
  unfold pop_traced
  rw [List.getLast?_eq_getLast _ (by simp)]

theorem pop_traced_safe (cmp : α → α → Bool) (s : List α) (hs : s ≠ []) :
    (pop_traced cmp s).1 = pop_storage cmp s ∧
    ∀ a ∈ (pop_traced cmp s).2, a.safe = true := by
  cases s with
  | nil => exact absurd rfl hs
  | cons x t =>
    rw [pop_traced_cons, pop_storage_cons]
    refine ⟨heap_down_traced_fst cmp _ _ _ rfl, ?_⟩
    intro a ha
    simp only [List.cons_append, List.nil_append, List.mem_cons] at ha
    rcases ha with rfl | rfl | rfl | ha
    · simp [Access.safe]
    · simp [Access.safe]
    · simp [Access.safe]
    · exact heap_down_traced_safe cmp _ _ _ rfl a ha

/-! ## Heap objects in memory: a call writes only the buffer of its own object -/

/-- C1. `push` preserves the heap property: for a strict weak ordering `compare_` and a
storage in which `compare_(s[(c-1)/2], s[c])` is false for every `0 < c < |s|`, the storage
after `push(v)` has the same property; `emplace` does the same. -/
theorem push_preserves_heap_property (h : Heap α) (hc : StrictWeakOrdering h.compare_)
    (hh : HeapProperty h.compare_ h.container_) (v : α) :
    HeapProperty (h.push v).compare_ (h.push v).container_ ∧
    HeapProperty (h.emplace v).compare_ (h.emplace v).container_ :=
  ⟨push_storage_heapProperty hc hh v, push_storage_heapProperty hc hh v⟩

theorem push_preserves_heap_property_witness :
    StrictWeakOrdering std_less ∧ HeapProperty std_less [5, 3, 4] ∧
    HeapProperty std_less (push ⟨std_less, [5, 3, 4]⟩ 7).container_ ∧
    HeapProperty std_less (emplace ⟨std_less, [5, 3, 4]⟩ 7).container_ :=
  ⟨std_less_swo, heapProperty_of_isHeap (by decide),
    push_preserves_heap_property ⟨std_less, [5, 3, 4]⟩ std_less_swo
      (heapProperty_of_isHeap (by decide)) 7⟩

/-- C2. `pop` preserves the heap property: for a strict weak ordering `compare_` and a
non-empty storage with the heap property, the storage after `pop()` (root overwritten by
the last element, last slot removed, `heap_down(0)`) has the heap property. -/
theorem pop_preserves_heap_property (h : Heap α) (hc : StrictWeakOrdering h.compare_)
    (hne : h.empty = false) (hh : HeapProperty h.compare_ h.container_) :
    HeapProperty h.pop.compare_ h.pop.container_ ∧
    ∃ b, h.container_.getLast? = some b ∧
      h.pop.container_ = heap_down h.compare_ (h.container_.set 0 b).dropLast 0 := by
  refine ⟨pop_storage_heapProperty hc hh, ?_⟩
  cases hs : h.container_ with
  | nil => simp [empty, hs] at hne
  | cons a t =>
    refine ⟨(a :: t).getLast (by simp), List.getLast?_eq_getLast _ _, ?_⟩
    simp only [pop, hs]
    exact pop_storage_cons _ a t

theorem pop_preserves_heap_property_witness :
    StrictWeakOrdering std_less ∧ empty ⟨std_less, [7, 5, 4, 3]⟩ = false ∧
    HeapProperty std_less [7, 5, 4, 3] ∧
    HeapProperty std_less (pop ⟨std_less, [7, 5, 4, 3]⟩).container_ :=
  ⟨std_less_swo, by decide, heapProperty_of_isHeap (by decide),
    (pop_preserves_heap_property ⟨std_less, [7, 5, 4, 3]⟩ std_less_swo (by decide)
      (heapProperty_of_isHeap (by decide))).1⟩

/-- C3. `top()` is the highest-priority element: for a strict weak ordering and a
non-empty heap obtained from the empty heap by `push` / `emplace` / `pop` (with `pop`
only on non-empty heaps), `top()` is a stored element and `compare_(top(), x)` is false
for every stored `x`; with the comparator `a > b` on integers the top is the minimum of
the stored values. -/
theorem top_is_highest_priority :
    (∀ (β : Type) (cmp : β → β → Bool) (ops : List (Op β)), StrictWeakOrdering cmp →
      popsGuarded (mk_empty cmp) ops = true → (run (mk_empty cmp) ops).empty = false →
      ∃ t, (run (mk_empty cmp) ops).top = some t ∧
        t ∈ (run (mk_empty cmp) ops).container_ ∧
        ∀ x ∈ (run (mk_empty cmp) ops).container_, cmp t x = false) ∧
    (∀ ops : List (Op Int),
      popsGuarded (mk_empty std_greater) ops = true →
      (run (mk_empty std_greater) ops).empty = false →
      ∃ t, (run (mk_empty std_greater) ops).top = some t ∧
        t ∈ (run (mk_empty std_greater) ops).container_ ∧
        ∀ x ∈ (run (mk_empty std_greater) ops).container_, t ≤ x) := by
  have key : ∀ (β : Type) (cmp : β → β → Bool) (ops : List (Op β)), StrictWeakOrdering cmp →
      (run (mk_empty cmp) ops).empty = false →
      ∃ t, (run (mk_empty cmp) ops).top = some t ∧
        t ∈ (run (mk_empty cmp) ops).container_ ∧
        ∀ x ∈ (run (mk_empty cmp) ops).container_, cmp t x = false := by
    intro β cmp ops hc hne
    have hcmp : (run (mk_empty cmp) ops).compare_ = cmp := run_compare ops _
    have hh := run_heapProperty ops (mk_empty cmp) hc (heapProperty_nil cmp)
    have := top_not_less (h := run (mk_empty cmp) ops) (by rw [hcmp]; exact hc) hh hne
    rw [hcmp] at this
    exact this
  refine ⟨fun β cmp ops hc _ hne => key β cmp ops hc hne, ?_⟩
  intro ops _ hne
  obtain ⟨t, ht, hmem, hall⟩ := key Int std_greater ops std_greater_swo hne
  refine ⟨t, ht, hmem, ?_⟩
  intro x hx
  have := hall x hx
  simp only [std_greater, decide_eq_false_iff_not] at this
  omega

theorem top_is_highest_priority_witness :
    StrictWeakOrdering std_greater ∧
    popsGuarded (mk_empty std_greater) [Op.push 0, Op.push 1, Op.push 2] = true ∧
    (run (mk_empty std_greater) [Op.push 0, Op.push 1, Op.push 2]).empty = false ∧
    (∃ t, (run (mk_empty std_greater) [Op.push 0, Op.push 1, Op.push 2]).top = some t ∧
      t ∈ (run (mk_empty std_greater) [Op.push 0, Op.push 1, Op.push 2]).container_ ∧
      ∀ x ∈ (run (mk_empty std_greater) [Op.push 0, Op.push 1, Op.push 2]).container_,
        std_greater t x = false) ∧
    (∃ t, (run (mk_empty std_greater) [Op.push 0, Op.push 1, Op.push 2]).top = some t ∧
      t ∈ (run (mk_empty std_greater) [Op.push 0, Op.push 1, Op.push 2]).container_ ∧
      ∀ x ∈ (run (mk_empty std_greater) [Op.push 0, Op.push 1, Op.push 2]).container_,
        t ≤ x) :=
  ⟨std_greater_swo, by decide, by decide,
    top_is_highest_priority.1 Int std_greater [Op.push 0, Op.push 1, Op.push 2]
      std_greater_swo (by decide) (by decide),
    top_is_highest_priority.2 [Op.push 0, Op.push 1, Op.push 2] (by decide) (by decide)⟩

/-- C4. Sorted extraction law: for a strict weak ordering and a heap with the heap
property, if the heap has at least two elements then `a = top()` before `pop()` and
`b = top()` after it exist and `compare_(a, b)` is false; hence reading `top()` and
popping until the heap is empty yields every stored element once, each value followed by
one that does not outrank it. -/
theorem sorted_extraction_law (h : Heap α) (hc : StrictWeakOrdering h.compare_)
    (hh : HeapProperty h.compare_ h.container_) :
    (2 ≤ h.size →
      ∃ a b, h.top = some a ∧ h.pop.top = some b ∧ h.compare_ a b = false) ∧
    List.Chain' (fun a b => h.compare_ a b = false) (drain h) ∧
    (drain h).length = h.size := by
  refine ⟨?_, (drain_pairwise _ h rfl hc hh).chain', (drain_perm _ h rfl).length_eq⟩
  intro h2
  cases hs : h.container_ with
  | nil => simp [size, hs] at h2
  | cons a t =>
    have hp : List.Perm h.pop.container_ t := by
      simp only [pop, hs]
      exact pop_storage_perm _ a t
    cases hq : h.pop.container_ with
    | nil =>
      have := hp.length_eq
      simp [size, hs] at h2
      simp [hq] at this
      omega
    | cons b u =>
      refine ⟨a, b, by simp [top, hs], by simp [top, hq], ?_⟩
      have hb : b ∈ t := hp.subset (by simp [hq])
      rw [hs] at hh
      exact head_not_less hc hh b (List.mem_cons_of_mem a hb)

theorem sorted_extraction_law_witness :
    StrictWeakOrdering std_less ∧ HeapProperty std_less [7, 5, 4, 3] ∧
    ((2 ≤ size ⟨std_less, [7, 5, 4, 3]⟩ →
      ∃ a b, top ⟨std_less, [7, 5, 4, 3]⟩ = some a ∧
        (pop ⟨std_less, [7, 5, 4, 3]⟩).top = some b ∧ std_less a b = false) ∧
    List.Chain' (fun a b => std_less a b = false) (drain ⟨std_less, [7, 5, 4, 3]⟩) ∧
    (drain ⟨std_less, [7, 5, 4, 3]⟩).length = size ⟨std_less, [7, 5, 4, 3]⟩) :=
  ⟨std_less_swo, heapProperty_of_isHeap (by decide),
    sorted_extraction_law ⟨std_less, [7, 5, 4, 3]⟩ std_less_swo
      (heapProperty_of_isHeap (by decide))⟩

/-- C5. Heap sort: pushing the elements of a list of integers in order into an empty
heap with `std::less` and then recording `top()` and calling `pop()` until `empty()`
yields the list sorted in descending order (a permutation of it), after exactly as many
pops as the list has elements; with `std::greater` it yields the list sorted in ascending
order. -/
theorem heap_sort (xs : List Int) :
    (drain (xs.foldl push (mk_empty std_less)) = xs.insertionSort (fun a b => a ≥ b) ∧
      List.Perm (drain (xs.foldl push (mk_empty std_less))) xs ∧
      List.Sorted (fun a b => a ≥ b) (drain (xs.foldl push (mk_empty std_less))) ∧
      (drain (xs.foldl push (mk_empty std_less))).length = xs.length ∧
      ∀ k, k ≤ xs.length →
        (Nat.iterate pop k (xs.foldl push (mk_empty std_less))).size = xs.length - k) ∧
    (drain (xs.foldl push (mk_empty std_greater)) = xs.insertionSort (fun a b => a ≤ b) ∧
      List.Perm (drain (xs.foldl push (mk_empty std_greater))) xs ∧
      List.Sorted (fun a b => a ≤ b) (drain (xs.foldl push (mk_empty std_greater))) ∧
      (drain (xs.foldl push (mk_empty std_greater))).length = xs.length ∧
      ∀ k, k ≤ xs.length →
        (Nat.iterate pop k (xs.foldl push (mk_empty std_greater))).size = xs.length - k) := by
  obtain ⟨p1, s1, l1, k1⟩ := drain_foldl_push std_less_swo xs
  obtain ⟨p2, s2, l2, k2⟩ := drain_foldl_push std_greater_swo xs
  have d1 : List.Sorted (fun a b : Int => a ≥ b) (drain (xs.foldl push (mk_empty std_less))) := by
    refine s1.imp ?_
    intro a b hab
    simp only [std_less, decide_eq_false_iff_not] at hab
    omega
  have d2 : List.Sorted (fun a b : Int => a ≤ b)
      (drain (xs.foldl push (mk_empty std_greater))) := by
    refine s2.imp ?_
    intro a b hab
    simp only [std_greater, decide_eq_false_iff_not] at hab
    omega
  refine ⟨⟨?_, p1, d1, l1, k1⟩, ⟨?_, p2, d2, l2, k2⟩⟩
  · exact List.eq_of_perm_of_sorted (p1.trans (List.perm_insertionSort _ xs).symm) d1
      (List.sorted_insertionSort _ xs)
  · exact List.eq_of_perm_of_sorted (p2.trans (List.perm_insertionSort _ xs).symm) d2
      (List.sorted_insertionSort _ xs)

theorem heap_sort_witness :
    3 ≤ [0, 1, 2, 3, 4].length ∧
    (Nat.iterate pop 3 ([0, 1, 2, 3, 4].foldl push (mk_empty std_less))).size
      = [0, 1, 2, 3, 4].length - 3 ∧
    drain ([0, 1, 2, 3, 4].foldl push (mk_empty std_less)) = [4, 3, 2, 1, 0] ∧
    drain ([0, 1, 2, 3, 4].foldl push (mk_empty std_greater)) = [0, 1, 2, 3, 4] :=
  ⟨by decide, (heap_sort [0, 1, 2, 3, 4]).1.2.2.2.2 3 (by decide), by decide, by decide⟩

/-- C6. Size accounting: a freshly constructed heap has `size() == 0`; `push` and
`emplace` increase `size()` by one; `pop` on a non-empty heap decreases it by one; after
any sequence of operations from the empty heap in which `pop` is never applied to an empty
heap, `size()` is the number of pushes and emplaces minus the number of pops; `empty()`
holds exactly when `size() == 0`.  No assumption is made on the comparator. -/
theorem size_accounting (cmp : α → α → Bool) (h : Heap α) (v : α) (ops : List (Op α)) :
    (mk_empty cmp).size = 0 ∧
    (h.push v).size = h.size + 1 ∧
    (h.emplace v).size = h.size + 1 ∧
    (h.empty = false → h.pop.size = h.size - 1 ∧ 1 ≤ h.size) ∧
    (popsGuarded (mk_empty cmp) ops = true →
      countPops ops ≤ countPushes ops ∧
      (run (mk_empty cmp) ops).size = countPushes ops - countPops ops) ∧
    (h.empty = true ↔ h.size = 0) := by
  refine ⟨rfl, size_push h v, size_push h v, ?_, ?_, empty_iff_size h⟩
  · intro hne
    refine ⟨size_pop h hne, ?_⟩
    have h1 := empty_iff_size h
    rw [hne] at h1
    have h2 : h.size ≠ 0 := fun h0 => absurd (h1.mpr h0) (by simp)
    omega
  · intro hg
    have := size_run ops (mk_empty cmp) hg
    have h0 : (mk_empty cmp).size = 0 := rfl
    omega

theorem size_accounting_witness :
    empty (⟨std_less, [7, 5, 4]⟩ : Heap Int) = false ∧
    popsGuarded (mk_empty std_less) [Op.push 1, Op.emplace 2, Op.pop, Op.push 3] = true ∧
    ((pop ⟨std_less, [7, 5, 4]⟩).size = size ⟨std_less, [7, 5, 4]⟩ - 1 ∧
      1 ≤ size ⟨std_less, [7, 5, 4]⟩) ∧
    (countPops [Op.push (1 : Int), Op.emplace 2, Op.pop, Op.push 3]
        ≤ countPushes [Op.push (1 : Int), Op.emplace 2, Op.pop, Op.push 3] ∧
      (run (mk_empty std_less) [Op.push 1, Op.emplace 2, Op.pop, Op.push 3]).size
        = countPushes [Op.push (1 : Int), Op.emplace 2, Op.pop, Op.push 3]
          - countPops [Op.push (1 : Int), Op.emplace 2, Op.pop, Op.push 3]) :=
  ⟨by decide, by decide,
    (size_accounting std_less ⟨std_less, [7, 5, 4]⟩ 0
      [Op.push 1, Op.emplace 2, Op.pop, Op.push 3]).2.2.2.1 (by decide),
    (size_accounting std_less ⟨std_less, [7, 5, 4]⟩ 0
      [Op.push 1, Op.emplace 2, Op.pop, Op.push 3]).2.2.2.2.1 (by decide)⟩

/-- C7. Move transfer: after `b` is move-constructed or move-assigned from `a`, the
storage of `b` is the former storage of `a` (same elements at the same indices, hence a
valid heap whenever `a` was one) and the comparator of `b` is that of `a`, while `a` has
`size() == 0`, `empty() == true`, and can still be pushed to. -/
theorem move_transfer (a b0 : Heap α) (v : α) :
    ((move_construct a).1.container_ = a.container_ ∧
      (move_construct a).1.compare_ = a.compare_ ∧
      (HeapProperty a.compare_ a.container_ →
        HeapProperty (move_construct a).1.compare_ (move_construct a).1.container_) ∧
      (move_construct a).2.size = 0 ∧ (move_construct a).2.empty = true ∧
      ((move_construct a).2.push v).container_ = [v]) ∧
    ((move_assign b0 a).1.container_ = a.container_ ∧
      (move_assign b0 a).1.compare_ = a.compare_ ∧
      (HeapProperty a.compare_ a.container_ →
        HeapProperty (move_assign b0 a).1.compare_ (move_assign b0 a).1.container_) ∧
      (move_assign b0 a).2.size = 0 ∧ (move_assign b0 a).2.empty = true ∧
      ((move_assign b0 a).2.push v).container_ = [v]) := by
  have hpush : ∀ cmp : α → α → Bool, push_storage cmp [] v = [v] := by
    intro cmp
    unfold push_storage
    rw [heap_up]
    simp
  exact ⟨⟨rfl, rfl, fun h => h, rfl, rfl, hpush a.compare_⟩,
    ⟨rfl, rfl, fun h => h, rfl, rfl, hpush a.compare_⟩⟩

theorem move_transfer_witness :
    HeapProperty std_greater [0, 1, 2, 3, 4] ∧
    HeapProperty (move_construct ⟨std_greater, [0, 1, 2, 3, 4]⟩).1.compare_
      (move_construct ⟨std_greater, [0, 1, 2, 3, 4]⟩).1.container_ ∧
    HeapProperty (move_assign (mk_empty std_greater) ⟨std_greater, [0, 1, 2, 3, 4]⟩).1.compare_
      (move_assign (mk_empty std_greater) ⟨std_greater, [0, 1, 2, 3, 4]⟩).1.container_ :=
  ⟨heapProperty_of_isHeap (by decide),
    (move_transfer ⟨std_greater, [0, 1, 2, 3, 4]⟩ (mk_empty std_greater) 0).1.2.2.1
      (heapProperty_of_isHeap (by decide)),
    (move_transfer ⟨std_greater, [0, 1, 2, 3, 4]⟩ (mk_empty std_greater) 0).2.2.2.1
      (heapProperty_of_isHeap (by decide))⟩

/-- C8. Swap: `a.swap(b)`, and the free `swap(a, b)` that delegates to it, leaves `a`
with the former storage and comparator of `b` and `b` with those of `a`, no element
reordered; applying `swap(a, b)` twice restores both heaps. -/
theorem swap_exchanges (a b : Heap α) :
    (a.swap b).1.container_ = b.container_ ∧ (a.swap b).1.compare_ = b.compare_ ∧
    (a.swap b).2.container_ = a.container_ ∧ (a.swap b).2.compare_ = a.compare_ ∧
    std_swap a b = a.swap b ∧
    std_swap (std_swap a b).1 (std_swap a b).2 = (a, b) ∧
    ((a.swap b).1.swap (a.swap b).2) = (a, b) :=
  ⟨rfl, rfl, rfl, rfl, rfl, rfl, rfl⟩

/-- C10, as stated, fails: with the comparator of the test "emplace" and the storage
`[(1, 0), (1, 1)]`, the only child of index 0 ties with the element at index 0 (`compare_`
is false in both directions, so the child does not outrank it), yet `heap_down(0)` selects
the child, swaps, and returns a different storage. -/
theorem heap_down_swaps_tied_child :
    StrictWeakOrdering foo_greater ∧
    left_idx 0 = 1 ∧ ¬ right_idx 0 < [((1 : Int), (0 : Int)), (1, 1)].length ∧
    cmpAt foo_greater [(1, 0), (1, 1)] 0 1 = false ∧
    cmpAt foo_greater [(1, 0), (1, 1)] 1 0 = false ∧
    heap_down_largest foo_greater [(1, 0), (1, 1)] 0 = 1 ∧
    heap_down foo_greater [(1, 0), (1, 1)] 0 = [(1, 1), (1, 0)] ∧
    heap_down foo_greater [(1, 0), (1, 1)] 0 ≠ [(1, 0), (1, 1)] :=
  ⟨foo_greater_swo, by decide, by decide, by decide, by decide, by decide, by decide,
    by decide⟩

/-- C10, amended. One iteration of `heap_down` at index `i` swaps the element at `i` with a
child exactly when some existing child passes the test `!compare_(child, current)` (the
child is not less prioritized than the current element, a tie included); the slot swapped
with is an existing child, and for a strict weak ordering `compare_(that child, current)`
is false; when `compare_(child, current)` is true for every existing child, `heap_down`
stops and leaves the storage unchanged. -/
theorem heap_down_swaps_iff_child_not_less (cmp : α → α → Bool) (s : List α) (i : Nat) :
    (heap_down_largest cmp s i ≠ i ↔
      ∃ c, 0 < c ∧ parent_idx c = i ∧ c < s.length ∧ cmpAt cmp s c i = false) ∧
    (heap_down_largest cmp s i ≠ i →
      heap_down cmp s i =
        heap_down cmp (swapAt s (heap_down_largest cmp s i) i) (heap_down_largest cmp s i) ∧
      (heap_down_largest cmp s i = left_idx i ∨ heap_down_largest cmp s i = right_idx i) ∧
      heap_down_largest cmp s i < s.length ∧ i < s.length) ∧
    (StrictWeakOrdering cmp → heap_down_largest cmp s i ≠ i →
      cmpAt cmp s (heap_down_largest cmp s i) i = false) ∧
    ((∀ c, 0 < c → parent_idx c = i → c < s.length → cmpAt cmp s c i = true) →
      heap_down_largest cmp s i = i ∧ heap_down cmp s i = s) := by
  refine ⟨largest_ne_self_iff cmp s i, ?_, ?_, ?_⟩
  · intro h
    refine ⟨heap_down_eq_of_largest_ne h, ?_⟩
    rcases heap_down_largest_cases cmp s i with h0 | ⟨h1, h2⟩ | ⟨h1, h2⟩
    · exact absurd h0 h
    · exact ⟨Or.inl h1, h1 ▸ h2, by unfold left_idx at h2; omega⟩
    · exact ⟨Or.inr h1, h1 ▸ h2, by unfold right_idx at h2; omega⟩
  · intro hc h
    obtain ⟨hLlen, hL0, hLp, hLi, _⟩ := largest_ne_self hc h
    have hiL : parent_idx (heap_down_largest cmp s i) < heap_down_largest cmp s i :=
      parent_idx_lt (by omega)
    have hil : i < s.length := by omega
    rw [cmpAt_of_getElem? (List.getElem?_eq_getElem hLlen) (List.getElem?_eq_getElem hil)]
    exact hLi _ _ (List.getElem?_eq_getElem hLlen) (List.getElem?_eq_getElem hil)
  · intro hall
    have h0 : heap_down_largest cmp s i = i := by
      by_cases h1 : heap_down_largest cmp s i = i
      · exact h1
      · obtain ⟨c, hc0, hp, hlen, hcmp⟩ := (largest_ne_self_iff cmp s i).mp h1
        rw [hall c hc0 hp hlen] at hcmp
        exact absurd hcmp (by simp)
    exact ⟨h0, heap_down_eq_self_of_largest h0⟩

theorem heap_down_swaps_iff_child_not_less_witness :
    heap_down_largest foo_greater [(1, 0), (1, 1)] 0 ≠ 0 ∧
    StrictWeakOrdering foo_greater ∧
    (∀ c, 0 < c → parent_idx c = 0 → c < [((1 : Int), (0 : Int)), (2, 1)].length →
      cmpAt foo_greater [(1, 0), (2, 1)] c 0 = true) ∧
    (heap_down foo_greater [(1, 0), (1, 1)] 0 =
        heap_down foo_greater
          (swapAt [(1, 0), (1, 1)] (heap_down_largest foo_greater [(1, 0), (1, 1)] 0) 0)
          (heap_down_largest foo_greater [(1, 0), (1, 1)] 0) ∧
      (heap_down_largest foo_greater [(1, 0), (1, 1)] 0 = left_idx 0 ∨
        heap_down_largest foo_greater [(1, 0), (1, 1)] 0 = right_idx 0) ∧
      heap_down_largest foo_greater [(1, 0), (1, 1)] 0 < [((1 : Int), (0 : Int)), (1, 1)].length ∧
      0 < [((1 : Int), (0 : Int)), (1, 1)].length) ∧
    cmpAt foo_greater [(1, 0), (1, 1)] (heap_down_largest foo_greater [(1, 0), (1, 1)] 0) 0
      = false ∧
    (heap_down_largest foo_greater [(1, 0), (2, 1)] 0 = 0 ∧
      heap_down foo_greater [(1, 0), (2, 1)] 0 = [(1, 0), (2, 1)]) := by
  have hall : ∀ c, 0 < c → parent_idx c = 0 → c < [((1 : Int), (0 : Int)), (2, 1)].length →
      cmpAt foo_greater [(1, 0), (2, 1)] c 0 = true := by
    intro c hc0 _ hlen
    have hc1 : c = 1 := by simp at hlen; omega
    subst hc1
    decide
  exact ⟨by decide, foo_greater_swo, hall,
    (heap_down_swaps_iff_child_not_less foo_greater [(1, 0), (1, 1)] 0).2.1 (by decide),
    (heap_down_swaps_iff_child_not_less foo_greater [(1, 0), (1, 1)] 0).2.2.1
      foo_greater_swo (by decide),
    (heap_down_swaps_iff_child_not_less foo_greater [(1, 0), (2, 1)] 0).2.2.2 hall⟩

/-- C11. Sift-up stops on a tie or an outranking parent: for a non-empty storage `s` of
length `n` and a value `v` with `compare_(s[(n-1)/2], v)` false, `push(v)` yields `s` with
`v` appended at index `n` and no element moved; `push` onto the empty storage yields
`[v]`; one evaluation of the loop condition of `heap_up` swaps the element with its parent
exactly when the index is not 0 and `compare_(parent, element)` is true, and otherwise
the loop ends with the storage as it is. -/
theorem sift_up_stops_on_tie (cmp : α → α → Bool) (s : List α) (v : α) (i : Nat) :
    (s ≠ [] → (∀ p, s[parent_idx s.length]? = some p → cmp p v = false) →
      push_storage cmp s v = s ++ [v] ∧ (push ⟨cmp, s⟩ v).container_ = s ++ [v]) ∧
    push_storage cmp [] v = [v] ∧
    (heap_up cmp s i ≠ s → i ≠ 0 ∧ cmpAt cmp s (parent_idx i) i = true) ∧
    (i ≠ 0 ∧ cmpAt cmp s (parent_idx i) i = true →
      heap_up cmp s i = heap_up cmp (swapAt s (parent_idx i) i) (parent_idx i)) ∧
    (¬ (i ≠ 0 ∧ cmpAt cmp s (parent_idx i) i = true) → heap_up cmp s i = s) := by
  refine ⟨fun _ h => ⟨push_storage_eq_append h, push_storage_eq_append h⟩,
    push_storage_nil cmp v, ?_, heap_up_of_cond, heap_up_of_not⟩
  intro hne
  by_cases hcond : i ≠ 0 ∧ cmpAt cmp s (parent_idx i) i = true
  · exact hcond
  · exact absurd (heap_up_of_not hcond) hne

theorem sift_up_stops_on_tie_witness :
    ([(5 : Int), 3, 4] ≠ [] ∧
      (∀ p, [(5 : Int), 3, 4][parent_idx [(5 : Int), 3, 4].length]? = some p →
        std_less p 3 = false)) ∧
    (push_storage std_less [5, 3, 4] 3 = [5, 3, 4] ++ [3] ∧
      (push ⟨std_less, [5, 3, 4]⟩ 3).container_ = [5, 3, 4] ++ [3]) ∧
    heap_up std_less [5, 3, 4, 7] 3 ≠ [5, 3, 4, 7] ∧
    (3 ≠ 0 ∧ cmpAt std_less [5, 3, 4, 7] (parent_idx 3) 3 = true) ∧
    heap_up std_less [5, 3, 4, 7] 3
      = heap_up std_less (swapAt [5, 3, 4, 7] (parent_idx 3) 3) (parent_idx 3) ∧
    ¬ (3 ≠ 0 ∧ cmpAt std_less [5, 3, 4, 3] (parent_idx 3) 3 = true) ∧
    heap_up std_less [5, 3, 4, 3] 3 = [5, 3, 4, 3] := by
  have hyp : ∀ p, [(5 : Int), 3, 4][parent_idx [(5 : Int), 3, 4].length]? = some p →
      std_less p 3 = false := by
    intro p hp
    have h1 : [(5 : Int), 3, 4][parent_idx [(5 : Int), 3, 4].length]? = some 3 := by decide
    rw [h1] at hp
    cases hp
    decide
  exact ⟨⟨by decide, hyp⟩,
    (sift_up_stops_on_tie std_less [5, 3, 4] 3 0).1 (by decide) hyp,
    by decide,
    (sift_up_stops_on_tie std_less [5, 3, 4, 7] 0 3).2.2.1 (by decide),
    (sift_up_stops_on_tie std_less [5, 3, 4, 7] 0 3).2.2.2.1 (by decide),
    by decide,
    (sift_up_stops_on_tie std_less [5, 3, 4, 3] 0 3).2.2.2.2 (by decide)⟩

/-- C12. Tie-break in sift-down: at an index whose two children exist, if the left child
is not less than the current element (`compare_(left, current)` false) and the right child
is not less than the left child (`compare_(right, left)` false, the two being tied
included), the iteration of `heap_down` selects the right child, and the element swapped
into the current position is the right child. -/
theorem sift_down_prefers_right_child (cmp : α → α → Bool) (s : List α) (i : Nat)
    (xi xl xr : α) (hi : s[i]? = some xi) (hl : s[left_idx i]? = some xl)
    (hr : s[right_idx i]? = some xr) (h1 : cmp xl xi = false) (h2 : cmp xr xl = false) :
    heap_down_largest cmp s i = right_idx i ∧
    (swapAt s (right_idx i) i)[i]? = some xr ∧
    (swapAt s (right_idx i) i)[right_idx i]? = some xi ∧
    (swapAt s (right_idx i) i)[left_idx i]? = some xl ∧
    heap_down cmp s i = heap_down cmp (swapAt s (right_idx i) i) (right_idx i) := by
  have hrl : right_idx i < s.length := (List.getElem?_eq_some.mp hr).1
  have hil : i < s.length := (List.getElem?_eq_some.mp hi).1
  have hL : heap_down_largest cmp s i = right_idx i :=
    heap_down_largest_eq_right hrl (by rw [cmpAt_of_getElem? hl hi]; exact h1)
      (by rw [cmpAt_of_getElem? hr hl]; exact h2)
  have hne : heap_down_largest cmp s i ≠ i := by
    rw [hL]; unfold right_idx; omega
  have hget := getElem?_swapAt hrl hil
  refine ⟨hL, ?_, ?_, ?_, ?_⟩
  · rw [hget, if_pos rfl]; exact hr
  · rw [hget, if_neg (by unfold right_idx; omega), if_pos rfl]; exact hi
  · rw [hget, if_neg (by unfold left_idx; omega),
      if_neg (by unfold left_idx right_idx; omega)]
    exact hl
  · have := heap_down_eq_of_largest_ne hne
    rw [hL] at this
    exact this

theorem sift_down_prefers_right_child_witness :
    ([((1 : Int), (0 : Int)), (1, 1), (1, 2)][0]? = some (1, 0) ∧
      [((1 : Int), (0 : Int)), (1, 1), (1, 2)][left_idx 0]? = some (1, 1) ∧
      [((1 : Int), (0 : Int)), (1, 1), (1, 2)][right_idx 0]? = some (1, 2) ∧
      foo_greater (1, 1) (1, 0) = false ∧ foo_greater (1, 2) (1, 1) = false) ∧
    heap_down_largest foo_greater [(1, 0), (1, 1), (1, 2)] 0 = right_idx 0 ∧
    heap_down foo_greater [(1, 0), (1, 1), (1, 2)] 0 = [(1, 2), (1, 1), (1, 0)] :=
  ⟨⟨by decide, by decide, by decide, by decide, by decide⟩,
    (sift_down_prefers_right_child foo_greater [(1, 0), (1, 1), (1, 2)] 0 (1, 0) (1, 1) (1, 2)
      (by decide) (by decide) (by decide) (by decide) (by decide)).1,
    by decide⟩

/-- C14. A comparator that is not a strict weak ordering breaks the invariant silently:
with `a <= b` on integers, which is not irreflexive, the two calls `push(1); push(1)` on
the empty heap both return a heap (no error is signalled), and the resulting storage
`[1, 1]` violates the heap property: `compare_(storage[0], storage[1])` is true for the
child 1 of index 0. -/
theorem non_strict_comparator_breaks_invariant :
    std_less_equal 1 1 = true ∧
    ¬ StrictWeakOrdering std_less_equal ∧
    (run (mk_empty std_less_equal) [Op.push 1, Op.push 1]).container_ = [1, 1] ∧
    (run (mk_empty std_less_equal) [Op.push 1, Op.push 1]).size = 2 ∧
    parent_idx 1 = 0 ∧
    cmpAt std_less_equal (run (mk_empty std_less_equal) [Op.push 1, Op.push 1]).container_
      0 1 = true ∧
    isHeap std_less_equal
      (run (mk_empty std_less_equal) [Op.push 1, Op.push 1]).container_ = false ∧
    ¬ HeapProperty std_less_equal
      (run (mk_empty std_less_equal) [Op.push 1, Op.push 1]).container_ := by
  have hs : (run (mk_empty std_less_equal) [Op.push 1, Op.push 1]).container_ = [1, 1] := by
    decide
  refine ⟨by decide, ?_, hs, by decide, by decide, by decide, by decide, ?_⟩
  · intro hc
    have := hc.irrefl 1
    exact absurd this (by decide)
  · intro hh
    rw [hs] at hh
    have := hh 1 1 1 (by decide) (by decide) (by decide)
    exact absurd this (by decide)

/-- C17. Element conservation: for every comparator, the storage after `push(v)` is a
permutation of the old storage with `v` appended, and for a non-empty storage the storage
after `pop()` is a permutation of the old storage with its element at index 0 removed. -/
theorem element_conservation (cmp : α → α → Bool) (s : List α) (v : α) :
    List.Perm (push ⟨cmp, s⟩ v).container_ (s ++ [v]) ∧
    List.Perm (emplace ⟨cmp, s⟩ v).container_ (s ++ [v]) ∧
    (s ≠ [] →
      List.Perm (pop ⟨cmp, s⟩).container_ (s.eraseIdx 0) ∧
      ∀ a, s[0]? = some a → List.Perm (a :: (pop ⟨cmp, s⟩).container_) s) := by
  refine ⟨push_storage_perm cmp s v, push_storage_perm cmp s v, ?_⟩
  intro hs
  cases s with
  | nil => exact absurd rfl hs
  | cons a t =>
    refine ⟨pop_storage_perm cmp a t, ?_⟩
    intro b hb
    simp at hb
    subst hb
    exact (pop_storage_perm cmp a t).cons a

theorem element_conservation_witness :
    [(7 : Int), 5, 4, 3] ≠ [] ∧ [(7 : Int), 5, 4, 3][0]? = some 7 ∧
    List.Perm (pop ⟨std_less, [7, 5, 4, 3]⟩).container_ ([(7 : Int), 5, 4, 3].eraseIdx 0) ∧
    List.Perm (7 :: (pop ⟨std_less, [7, 5, 4, 3]⟩).container_) [7, 5, 4, 3] ∧
    (pop ⟨std_less, [7, 5, 4, 3]⟩).container_ = [5, 3, 4] :=
  ⟨by decide, by decide,
    ((element_conservation std_less [7, 5, 4, 3] 0).2.2 (by decide)).1,
    ((element_conservation std_less [7, 5, 4, 3] 0).2.2 (by decide)).2 7 (by decide),
    by decide⟩

/-- C18. Top after push: for a strict weak ordering, a non-empty heap with the heap
property and a value `v`, `top()` after `push(v)` is `v` when `compare_(old top, v)` is
true, and is the old top, still at index 0, when `compare_(old top, v)` is false; pushing
onto the empty heap makes `v` the top. -/
theorem top_after_push (h : Heap α) (hc : StrictWeakOrdering h.compare_)
    (hh : HeapProperty h.compare_ h.container_) (r : α) (hr : h.top = some r) (v : α) :
    (h.compare_ r v = true → (h.push v).top = some v) ∧
    (h.compare_ r v = false →
      (h.push v).top = some r ∧ (h.push v).container_[0]? = some r) ∧
    (push (mk_empty h.compare_) v).top = some v := by
  cases hs : h.container_ with
  | nil => simp [top, hs] at hr
  | cons a t =>
    have hra : a = r := by simpa [top, hs] using hr
    subst hra
    rw [hs] at hh
    refine ⟨?_, ?_, ?_⟩
    · intro hrv
      simp only [top, push, hs, List.head?_eq_getElem?]
      exact push_storage_root_replace hc hh hrv
    · intro hrv
      simp only [top, push, hs, List.head?_eq_getElem?]
      exact ⟨push_storage_root_keep hrv, push_storage_root_keep hrv⟩
    · simp only [top, push, mk_empty, push_storage_nil]
      rfl

theorem top_after_push_witness :
    StrictWeakOrdering std_less ∧ HeapProperty std_less [7, 5, 4, 3] ∧
    top ⟨std_less, [7, 5, 4, 3]⟩ = some 7 ∧
    std_less 7 9 = true ∧ std_less 7 6 = false ∧
    (push ⟨std_less, [7, 5, 4, 3]⟩ 9).top = some 9 ∧
    ((push ⟨std_less, [7, 5, 4, 3]⟩ 6).top = some 7 ∧
      (push ⟨std_less, [7, 5, 4, 3]⟩ 6).container_[0]? = some 7) ∧
    (push ⟨std_less, [7, 5, 4, 3]⟩ 6).container_ = [7, 6, 4, 3, 5] :=
  ⟨std_less_swo, heapProperty_of_isHeap (by decide), by decide, by decide, by decide,
    (top_after_push ⟨std_less, [7, 5, 4, 3]⟩ std_less_swo (heapProperty_of_isHeap (by decide))
      7 (by decide) 9).1 (by decide),
    (top_after_push ⟨std_less, [7, 5, 4, 3]⟩ std_less_swo (heapProperty_of_isHeap (by decide))
      7 (by decide) 6).2.1 (by decide),
    by decide⟩

/-- C13. The two child-acceptance tests agree on strict total orders: for a comparator
that is a strict total order and a storage whose elements are pairwise distinct,
`heap_down` with the test `!compare_(child, largest)` produces the same storage as the
variant with the test `compare_(largest, child)`; and for the strict weak ordering
`std::greater<Foo>`, which has tied elements, the two produce different storages from
`[(1, 0), (1, 1)]`. -/
theorem strict_and_non_strict_test_agree (cmp : α → α → Bool)
    (hc : StrictTotalOrdering cmp) (s : List α) (hs : s.Nodup) (i : Nat) :
    heap_down cmp s i = heap_down_strict cmp s i ∧
    (StrictWeakOrdering foo_greater ∧
      heap_down foo_greater [(1, 0), (1, 1)] 0 = [(1, 1), (1, 0)] ∧
      heap_down_strict foo_greater [(1, 0), (1, 1)] 0 = [(1, 0), (1, 1)] ∧
      heap_down foo_greater [(1, 0), (1, 1)] 0
        ≠ heap_down_strict foo_greater [(1, 0), (1, 1)] 0) :=
  ⟨(heap_down_strict_eq hc _ s i rfl hs).symm,
    foo_greater_swo, by decide, by decide, by decide⟩

theorem std_less_sto : StrictTotalOrdering std_less := by
  constructor
  · intro a; simp [std_less]
  · intro a b c; simp only [std_less, decide_eq_true_eq]; omega
  · intro a b hab; simp only [std_less, decide_eq_true_eq]; omega

theorem strict_and_non_strict_test_agree_witness :
    StrictTotalOrdering std_less ∧ [(3 : Int), 5, 4, 7].Nodup ∧
    heap_down std_less [3, 5, 4, 7] 0 = heap_down_strict std_less [3, 5, 4, 7] 0 ∧
    heap_down std_less [3, 5, 4, 7] 0 = [5, 7, 4, 3] :=
  ⟨std_less_sto, by decide,
    (strict_and_non_strict_test_agree std_less std_less_sto [3, 5, 4, 7] (by decide) 0).1,
    by decide⟩

/-- C15. Index safety: `push` / `emplace` on any heap, and `top` and `pop` on a non-empty
heap (a one-element heap included, where `heap_down` runs on the empty storage and touches
no slot), access only storage indices strictly below the size the storage has at that
moment; `heap_up` evaluates `parent_idx(i)` only for `i != 0`; and `push` evaluates
`size() - 1` only when `size() >= 1`.  The recorded runs compute the same storages as the
member functions. -/
theorem index_safety (cmp : α → α → Bool) (s : List α) (v : α) (i : Nat) :
    ((push_traced cmp s v).1 = (push ⟨cmp, s⟩ v).container_ ∧
      (push_traced cmp s v).1 = (emplace ⟨cmp, s⟩ v).container_ ∧
      ∀ a ∈ (push_traced cmp s v).2, a.safe = true) ∧
    (s ≠ [] →
      (top_traced s).1 = top ⟨cmp, s⟩ ∧
      (∀ a ∈ (top_traced s).2, a.safe = true) ∧
      (pop_traced cmp s).1 = (pop ⟨cmp, s⟩).container_ ∧
      ∀ a ∈ (pop_traced cmp s).2, a.safe = true) ∧
    pop_traced cmp [v] = ([], [Access.elem 0 1, Access.elem 0 1, Access.elem 0 1]) ∧
    ((heap_up_traced cmp s i).1 = heap_up cmp s i ∧
      ∀ j, Access.parent j ∈ (heap_up_traced cmp s i).2 → j ≠ 0) ∧
    (i < s.length → ∀ a ∈ (heap_up_traced cmp s i).2, a.safe = true) ∧
    ((heap_down_traced cmp s i).1 = heap_down cmp s i ∧
      ∀ a ∈ (heap_down_traced cmp s i).2, a.safe = true) ∧
    (Access.size_minus_one (s ++ [v]).length ∈ (push_traced cmp s v).2 ∧
      1 ≤ (s ++ [v]).length) := by
  refine ⟨⟨heap_up_traced_fst cmp _ _, heap_up_traced_fst cmp _ _, push_traced_safe cmp s v⟩,
    ?_, ?_, ⟨heap_up_traced_fst cmp i s, heap_up_traced_parent cmp i s⟩,
    heap_up_traced_safe cmp i s,
    ⟨heap_down_traced_fst cmp _ s i rfl, heap_down_traced_safe cmp _ s i rfl⟩, ?_⟩
  · intro hs
    refine ⟨rfl, ?_, (pop_traced_safe cmp s hs).1, (pop_traced_safe cmp s hs).2⟩
    intro a ha
    have hl : 0 < s.length := List.length_pos.mpr hs
    simp only [top_traced, List.mem_singleton] at ha
    subst ha
    simp only [Access.safe, decide_eq_true_eq]
    exact hl
  · rw [pop_traced_cons, heap_down_traced]
    have h0 : heap_down_largest cmp ([] : List α) 0 = 0 := by
      simp [heap_down_largest]
    simp [h0, heap_down_reads]
  · exact ⟨by simp [push_traced], by simp⟩

theorem index_safety_witness :
    [(7 : Int), 5, 4, 3] ≠ [] ∧ 3 < [(5 : Int), 3, 4, 7].length ∧
    (pop_traced std_less [7, 5, 4, 3]).1 = (pop ⟨std_less, [7, 5, 4, 3]⟩).container_ ∧
    (∀ a ∈ (pop_traced std_less [7, 5, 4, 3]).2, a.safe = true) ∧
    (pop_traced std_less [7, 5, 4, 3]).2 =
      [Access.elem 3 4, Access.elem 0 4, Access.elem 3 4,
        Access.elem 1 3, Access.elem 0 3, Access.elem 2 3, Access.elem 1 3,
        Access.elem 1 3, Access.elem 0 3] ∧
    (∀ a ∈ (heap_up_traced std_less [5, 3, 4, 7] 3).2, a.safe = true) ∧
    (∀ j, Access.parent j ∈ (heap_up_traced std_less [5, 3, 4, 7] 3).2 → j ≠ 0) ∧
    (heap_up_traced std_less [5, 3, 4, 7] 3).2 =
      [Access.parent 3, Access.elem 1 4, Access.elem 3 4,
        Access.parent 3, Access.elem 1 4, Access.elem 3 4, Access.parent 3,
        Access.parent 1, Access.elem 0 4, Access.elem 1 4,
        Access.parent 1, Access.elem 0 4, Access.elem 1 4, Access.parent 1] :=
  ⟨by decide, by decide,
    ((index_safety std_less [7, 5, 4, 3] 0 0).2.1 (by decide)).2.2.1,
    ((index_safety std_less [7, 5, 4, 3] 0 0).2.1 (by decide)).2.2.2,
    by decide,
    (index_safety std_less [5, 3, 4, 7] 0 3).2.2.2.2.1 (by decide),
    (index_safety std_less [5, 3, 4, 7] 0 3).2.2.2.1.2,
    by decide⟩

/-- C16. Termination for every comparator: for every storage, start index and comparator
(no assumption on it), the loop of `heap_up` started at `i` ends within `i + 1`
evaluations of its condition, the index strictly decreasing at each swap, and the loop of
`heap_down` started at `i` ends within `size() - i + 1` iterations, the index strictly
increasing at each swap and staying below `size()`; hence `push`, `emplace` and `pop`
return. -/
theorem loops_terminate (cmp : α → α → Bool) (s : List α) (i : Nat) (v : α) :
    heap_up_fuel cmp (i + 1) s i = some (heap_up cmp s i) ∧
    (i ≠ 0 → parent_idx i < i) ∧
    heap_down_fuel cmp (s.length - i + 1) s i = some (heap_down cmp s i) ∧
    (heap_down_largest cmp s i ≠ i →
      i < heap_down_largest cmp s i ∧ heap_down_largest cmp s i < s.length ∧
      (swapAt s (heap_down_largest cmp s i) i).length = s.length) ∧
    heap_up_fuel cmp (s.length + 1) (s ++ [v]) ((s ++ [v]).length - 1)
      = some (push ⟨cmp, s⟩ v).container_ ∧
    heap_up_fuel cmp (s.length + 1) (s ++ [v]) ((s ++ [v]).length - 1)
      = some (emplace ⟨cmp, s⟩ v).container_ ∧
    (∀ b, s.getLast? = some b →
      heap_down_fuel cmp s.length (s.set 0 b).dropLast 0
        = some (pop ⟨cmp, s⟩).container_) := by
  refine ⟨heap_up_fuel_eq cmp _ _ _ (by omega), parent_idx_lt,
    heap_down_fuel_eq cmp _ _ _ (by omega), ?_,
    heap_up_fuel_eq cmp _ _ _ (by simp), heap_up_fuel_eq cmp _ _ _ (by simp), ?_⟩
  · intro h
    exact ⟨(heap_down_largest_bounds h).1, (heap_down_largest_bounds h).2,
      length_swapAt _ _ _⟩
  · intro b hb
    have hs : s ≠ [] := by
      intro h0
      rw [h0] at hb
      simp at hb
    have hl : 0 < s.length := List.length_pos.mpr hs
    simp only [pop, pop_storage, hb]
    exact heap_down_fuel_eq cmp _ _ _ (by simp; omega)

theorem loops_terminate_witness :
    (3 : Nat) ≠ 0 ∧
    heap_down_largest std_less_equal [1, 2, 3, 4] 0 ≠ 0 ∧
    [(1 : Int), 2, 3, 4].getLast? = some 4 ∧
    parent_idx 3 < 3 ∧
    (0 < heap_down_largest std_less_equal [1, 2, 3, 4] 0 ∧
      heap_down_largest std_less_equal [1, 2, 3, 4] 0 < [(1 : Int), 2, 3, 4].length ∧
      (swapAt [(1 : Int), 2, 3, 4]
        (heap_down_largest std_less_equal [1, 2, 3, 4] 0) 0).length
        = [(1 : Int), 2, 3, 4].length) ∧
    heap_down_fuel std_less_equal [(1 : Int), 2, 3, 4].length
        ([(1 : Int), 2, 3, 4].set 0 4).dropLast 0
      = some (pop ⟨std_less_equal, [1, 2, 3, 4]⟩).container_ ∧
    heap_up_fuel (fun _ _ : Int => true) 4 [1, 2, 3, 4] 3 = some [4, 1, 3, 2] :=
  ⟨by decide, by decide, by decide,
    (loops_terminate std_less [] 3 0).2.1 (by decide),
    (loops_terminate std_less_equal [1, 2, 3, 4] 0 0).2.2.2.1 (by decide),
    (loops_terminate std_less_equal [1, 2, 3, 4] 0 0).2.2.2.2.2.2 4 (by decide),
    by decide⟩

end bk.Heap
